import Mathlib

/-!
Verification development for the referral/action-plan generation pipelines.

The development shallowly embeds the two state machines of the repository:

* the incremental stream extractor of
  `src/app/src/pipelines/generate_referrals/pipeline_wrapper.py`
  (`PipelineWrapper.run_chat_completion`), which scans a growing character
  buffer for `---RESOURCE_START---` / `---RESOURCE_END---` framed records,
  validates each candidate (JSON parse + `Resource` model check) and emits
  the parsed object, and
* the bounded validate-and-retry orchestration of the blocking mode
  (the retry components live in `src/common/components.py`, which is not part
  of this snapshot; they are modelled from the specification where needed).

Strings are modelled as `List Char`; Python slices/`str.find`/`str.strip`
are translated to explicit list operations.  `json.loads` is modelled by a
fuel-indexed recursive-descent parser over a `Json` value type, and the
pydantic `Resource` / `ActionPlan` model checks by explicit field decoders.
-/

set_option maxRecDepth 10000
set_option maxHeartbeats 3200000

/-- Python `str.strip` whitespace set (the ASCII part actually exercised). -/
def pySpace (c : Char) : Bool :=
  c = ' ' || c = '\t' || c = '\n' || c = '\r' || c = '\x0b' || c = '\x0c'

/-- Model of Python `str.strip()`: drop leading and trailing whitespace. -/
def pyStrip (l : List Char) : List Char :=
  ((l.dropWhile pySpace).reverse.dropWhile pySpace).reverse

/-- JSON whitespace accepted by `json.loads` between tokens. -/
def jsonWs (c : Char) : Bool :=
  c = ' ' || c = '\t' || c = '\n' || c = '\r'

/-- Skip JSON whitespace. -/
def skipWs (l : List Char) : List Char := l.dropWhile jsonWs

/-- The start marker of the streaming wire format (`start_marker` in the source). -/
def startMarker : List Char := "---RESOURCE_START---".data

/-- The end marker of the streaming wire format (`end_marker` in the source). -/
def endMarker : List Char := "---RESOURCE_END---".data

/-- One framed record of the streaming wire format. -/
def frameOf (p : List Char) : List Char := startMarker ++ p ++ endMarker

/-- Index of the first occurrence of `pat` in `l`, i.e. Python `l.find(pat)`
restricted to the found case (`none` models `-1`). -/
def findSub (pat : List Char) : List Char → Option Nat
  | [] => if pat.isEmpty then some 0 else none
  | c :: rest =>
    if pat.isPrefixOf (c :: rest) then some 0
    else (findSub pat rest).map (· + 1)

/-- Python `pat in l`. -/
def containsSub (pat l : List Char) : Bool := (findSub pat l).isSome

/-- `pat` occurs in `l` at index `i`. -/
def occursAt (pat l : List Char) (i : Nat) : Prop := pat <+: l.drop i

instance (pat l : List Char) (i : Nat) : Decidable (occursAt pat l i) := by
  unfold occursAt; infer_instance

/-- `i` is the index of the first occurrence of `pat` in `l`. -/
def firstOccurAt (pat l : List Char) (i : Nat) : Prop :=
  occursAt pat l i ∧ ∀ j, j < i → ¬ occursAt pat l j

instance (pat l : List Char) (i : Nat) : Decidable (firstOccurAt pat l i) := by
  unfold firstOccurAt
  infer_instance

/-- JSON values as produced by `json.loads`.  Numbers keep their raw
source text (no claim exercises numeric semantics). -/
inductive Json where
  | null : Json
  | bool (b : Bool) : Json
  | num (raw : List Char) : Json
  | str (s : List Char) : Json
  | arr (items : List Json) : Json
  | obj (members : List (List Char × Json)) : Json

/-- Value of a hexadecimal digit. -/
def hexVal (c : Char) : Option Nat :=
  if '0' ≤ c ∧ c ≤ '9' then some (c.toNat - '0'.toNat)
  else if 'a' ≤ c ∧ c ≤ 'f' then some (c.toNat - 'a'.toNat + 10)
  else if 'A' ≤ c ∧ c ≤ 'F' then some (c.toNat - 'A'.toNat + 10)
  else none

/-- The single-character JSON string escapes (after the backslash),
`\uXXXX` excluded. -/
def unescCharOf (e : Char) : Option Char :=
  if e = '"' then some '"'
  else if e = '\\' then some '\\'
  else if e = '/' then some '/'
  else if e = 'b' then some (Char.ofNat 8)
  else if e = 'f' then some (Char.ofNat 12)
  else if e = 'n' then some '\n'
  else if e = 'r' then some '\r'
  else if e = 't' then some '\t'
  else none

/-- Parse the body of a JSON string (the opening quote already consumed):
returns the decoded content and the remaining input after the closing
quote.  Raw control characters are rejected, as by `json.loads` in strict
mode. -/
def parseStringBody : List Char → Option (List Char × List Char)
  | [] => none
  | c :: rest =>
    if c = '"' then some ([], rest)
    else if c = '\\' then
      match rest with
      | [] => none
      | e :: rest₂ =>
        if e = 'u' then
          match rest₂ with
          | h₁ :: h₂ :: h₃ :: h₄ :: rest₃ =>
            match hexVal h₁, hexVal h₂, hexVal h₃, hexVal h₄ with
            | some a, some b, some c₃, some d =>
              (parseStringBody rest₃).map
                (fun sr => (Char.ofNat (((a * 16 + b) * 16 + c₃) * 16 + d) :: sr.1, sr.2))
            | _, _, _, _ => none
          | _ => none
        else
          match unescCharOf e with
          | some ch => (parseStringBody rest₂).map (fun sr => (ch :: sr.1, sr.2))
          | none => none
    else if c.toNat < 32 then none
    else (parseStringBody rest).map (fun sr => (c :: sr.1, sr.2))

/-- Longest digit run at the head of the input. -/
def spanDigits (l : List Char) : List Char × List Char :=
  (l.takeWhile Char.isDigit, l.dropWhile Char.isDigit)

/-- Parse a JSON number token (grammar of RFC 8259 / `json.loads`); returns
the raw token text and the rest. -/
def parseNumber (l : List Char) : Option (List Char × List Char) :=
  let (neg, l₁) := match l with
    | '-' :: t => (['-'], t)
    | _ => (([] : List Char), l)
  match spanDigits l₁ with
  | ([], _) => none
  | (ds, l₂) =>
    if ds.length > 1 ∧ ds.headI = '0' then none
    else
      let (fracOk, frac, l₃) := match l₂ with
        | '.' :: t =>
          match spanDigits t with
          | ([], _) => (false, ([] : List Char), t)
          | (fs, t₂) => (true, '.' :: fs, t₂)
        | _ => (true, ([] : List Char), l₂)
      if ¬ fracOk then none
      else
        let (expOk, ex, l₄) := match l₃ with
          | 'e' :: t => expTail 'e' t
          | 'E' :: t => expTail 'E' t
          | _ => (true, ([] : List Char), l₃)
        if ¬ expOk then none
        else some (neg ++ ds ++ frac ++ ex, l₄)
where
  /-- Exponent part after the `e`/`E`. -/
  expTail (e : Char) (t : List Char) : Bool × List Char × List Char :=
    let (sgn, t₁) := match t with
      | '+' :: t₂ => (['+'], t₂)
      | '-' :: t₂ => (['-'], t₂)
      | _ => (([] : List Char), t)
    match spanDigits t₁ with
    | ([], _) => (false, [], t₁)
    | (es, t₂) => (true, e :: sgn ++ es, t₂)

mutual

/-- Fuel-indexed recursive-descent parser for one JSON value; models
`json.loads` (which raises on failure — here `none`). -/
def parseValue : Nat → List Char → Option (Json × List Char)
  | 0, _ => none
  | f + 1, l =>
    match skipWs l with
    | [] => none
    | c :: rest =>
      if c = '"' then (parseStringBody rest).map (fun sr => (Json.str sr.1, sr.2))
      else if c = '\x7b' then
        match skipWs rest with
        | '\x7d' :: r => some (Json.obj [], r)
        | l₂ => parseMembers f l₂ []
      else if c = '[' then
        match skipWs rest with
        | ']' :: r => some (Json.arr [], r)
        | l₂ => parseItems f l₂ []
      else if c = 't' then
        if "rue".data.isPrefixOf rest then some (Json.bool true, rest.drop 3) else none
      else if c = 'f' then
        if "alse".data.isPrefixOf rest then some (Json.bool false, rest.drop 4) else none
      else if c = 'n' then
        if "ull".data.isPrefixOf rest then some (Json.null, rest.drop 3) else none
      else if c = '-' ∨ c.isDigit then
        (parseNumber (c :: rest)).map (fun tr => (Json.num tr.1, tr.2))
      else none

/-- Members of a JSON object after the opening brace (nonempty case). -/
def parseMembers : Nat → List Char → List (List Char × Json) → Option (Json × List Char)
  | 0, _, _ => none
  | f + 1, l, acc =>
    match skipWs l with
    | '"' :: rest =>
      match parseStringBody rest with
      | none => none
      | some kr =>
        match skipWs kr.2 with
        | ':' :: r₂ =>
          match parseValue f r₂ with
          | none => none
          | some vr =>
            match skipWs vr.2 with
            | ',' :: r₄ => parseMembers f r₄ (acc ++ [(kr.1, vr.1)])
            | '\x7d' :: r₄ => some (Json.obj (acc ++ [(kr.1, vr.1)]), r₄)
            | _ => none
        | _ => none
    | _ => none

/-- Items of a JSON array after the opening bracket (nonempty case). -/
def parseItems : Nat → List Char → List Json → Option (Json × List Char)
  | 0, _, _ => none
  | f + 1, l, acc =>
    match parseValue f l with
    | none => none
    | some vr =>
      match skipWs vr.2 with
      | ',' :: r₂ => parseItems f r₂ (acc ++ [vr.1])
      | ']' :: r₂ => some (Json.arr (acc ++ [vr.1]), r₂)
      | _ => none

end

/-- Model of `json.loads`: parse one value, require the rest of the input to
be whitespace. -/
def parseJson (l : List Char) : Option Json :=
  match parseValue (l.length + 2) l with
  | none => none
  | some jr => if (skipWs jr.2).isEmpty then some jr.1 else none

/-- The `referral_type` enum of the `Resource` pydantic model. -/
inductive ReferralType where
  | external : ReferralType
  | goodwill : ReferralType
  | government : ReferralType
deriving DecidableEq, Repr

/-- The JSON string value of a `ReferralType` (its enum value). -/
def rtValChars : ReferralType → List Char
  | .external => "external".data
  | .goodwill => "goodwill".data
  | .government => "government".data

/-- The `Resource` pydantic model of
`src/app/src/pipelines/generate_referrals/pipeline_wrapper.py`. -/
structure Resource where
  name : List Char
  addresses : List (List Char)
  phones : List (List Char)
  emails : List (List Char)
  website : Option (List Char)
  description : List Char
  justification : List Char
  referral_type : Option ReferralType
deriving DecidableEq, Repr

/-- The `ActionPlan` pydantic model of
`src/app/src/pipelines/generate_action_plan/pipeline_wrapper.py`. -/
structure ActionPlan where
  title : List Char
  summary : List Char
  content : List Char
deriving DecidableEq, Repr

/-- Apply `f` to every element, succeeding only if every application
succeeds (pydantic validates every list item). -/
def allSome (f : α → Option β) : List α → Option (List β)
  | [] => some []
  | x :: xs =>
    match f x, allSome f xs with
    | some y, some ys => some (y :: ys)
    | _, _ => none

/-- Last binding of key `k` among the members (Python dicts built by
`json.loads` keep the last duplicate). -/
def lookupLast (ms : List (List Char × Json)) (k : List Char) : Option Json :=
  match ms with
  | [] => none
  | m :: rest =>
    match lookupLast rest k with
    | some r => some r
    | none => if m.1 = k then some m.2 else none

/-- Decode a required string field. -/
def asStr : Json → Option (List Char)
  | .str s => some s
  | _ => none

/-- Decode a required `list[str]` field. -/
def asStrList : Json → Option (List (List Char))
  | .arr xs => allSome asStr xs
  | _ => none

/-- Decode an `Optional[str]` field: absent or `null` become `none`. -/
def optStrField : Option Json → Option (Option (List Char))
  | none => some none
  | some .null => some none
  | some (.str s) => some (some s)
  | some _ => none

/-- Decode an `Optional[ReferralType]` field. -/
def rtField : Option Json → Option (Option ReferralType)
  | none => some none
  | some .null => some none
  | some (.str s) =>
    if s = "external".data then some (some .external)
    else if s = "goodwill".data then some (some .goodwill)
    else if s = "government".data then some (some .government)
    else none
  | some _ => none

/-- Field keys of the `Resource` model. -/
def keyName : List Char := "name".data
def keyAddresses : List Char := "addresses".data
def keyPhones : List Char := "phones".data
def keyEmails : List Char := "emails".data
def keyWebsite : List Char := "website".data
def keyDescription : List Char := "description".data
def keyJustification : List Char := "justification".data
def keyReferralType : List Char := "referral_type".data

/-- Model of `Resource(**obj)`: pydantic validation of one parsed JSON
value against the `Resource` model (extra keys ignored; a non-object
raises, i.e. `none`). -/
def resourceFromJson : Json → Option Resource
  | .obj ms => do
    let name ← (lookupLast ms keyName).bind asStr
    let addresses ← (lookupLast ms keyAddresses).bind asStrList
    let phones ← (lookupLast ms keyPhones).bind asStrList
    let emails ← (lookupLast ms keyEmails).bind asStrList
    let website ← optStrField (lookupLast ms keyWebsite)
    let description ← (lookupLast ms keyDescription).bind asStr
    let justification ← (lookupLast ms keyJustification).bind asStr
    let referral_type ← rtField (lookupLast ms keyReferralType)
    pure ⟨name, addresses, phones, emails, website, description, justification, referral_type⟩
  | _ => none

/-- The candidate validation of `run_chat_completion`: `json.loads` the
candidate, check it against the `Resource` model, and on success emit the
*parsed* object (the code yields `json.dumps(resource_obj)`, discarding the
constructed model instance). -/
def resourceValidate (candidate : List Char) : Option Json :=
  match parseJson candidate with
  | none => none
  | some j => if (resourceFromJson j).isSome then some j else none

/-- Keys of the `ActionPlan` model. -/
def keyTitle : List Char := "title".data
def keySummary : List Char := "summary".data
def keyContent : List Char := "content".data

/-- Model of `ActionPlan(**obj)`. -/
def actionPlanFromJson : Json → Option ActionPlan
  | .obj ms => do
    let title ← (lookupLast ms keyTitle).bind asStr
    let summary ← (lookupLast ms keySummary).bind asStr
    let content ← (lookupLast ms keyContent).bind asStr
    pure ⟨title, summary, content⟩
  | _ => none

/-- Validation of a raw model reply against the `ActionPlan` schema. -/
def actionPlanValidate (reply : List Char) : Option ActionPlan :=
  (parseJson reply).bind actionPlanFromJson

/-- One scan step of the extraction loop in `run_chat_completion`
(lines 267–302): find the first end marker and the first start marker
anywhere in the buffer; if both exist, strip the slice between the end of
the start marker and the end marker, validate it (`validate`), and drop
everything up to and including the end marker.  `none` models loop
exit/`break`. -/
def scanStep (validate : List Char → Option R) (b : List Char) :
    Option (List R × List Char) :=
  match findSub endMarker b with
  | none => none
  | some e =>
    match findSub startMarker b with
    | none => none
    | some s =>
      let candidate := pyStrip ((b.drop (s + startMarker.length)).take (e - (s + startMarker.length)))
      some ((validate candidate).toList, b.drop (e + endMarker.length))

/-- The `while "---RESOURCE_END---" in buffer` loop, fuel-indexed (each
firing step removes at least the end marker, so `b.length` fuel always
suffices).  Returns the emitted records in order and the final buffer. -/
def scanLoop (validate : List Char → Option R) : Nat → List Char → List R × List Char
  | 0, b => ([], b)
  | f + 1, b =>
    match scanStep validate b with
    | none => ([], b)
    | some eb =>
      let next := scanLoop validate f eb.2
      (eb.1 ++ next.1, next.2)

/-- Run the scan loop to completion on a buffer. -/
def scan (validate : List Char → Option R) (b : List Char) : List R × List Char :=
  scanLoop validate b.length b

/-- State of the stream extractor: the unconsumed buffer and the records
emitted so far. -/
structure ExtractState (R : Type) where
  buffer : List Char
  records : List R
deriving Repr

/-- Process one `response.output_text.delta` event: empty deltas are
skipped (`if ... and event.delta:`), otherwise append to the buffer and
drive the scan loop to completion. -/
def processDelta (validate : List Char → Option R) (st : ExtractState R)
    (delta : List Char) : ExtractState R :=
  if delta.isEmpty then st
  else
    let out := scan validate (st.buffer ++ delta)
    ⟨out.2, st.records ++ out.1⟩

/-- Process the delta events of one stream in order (the events before the
terminating `response.done`). -/
def processDeltas (validate : List Char → Option R) (deltas : List (List Char)) :
    ExtractState R :=
  deltas.foldl (processDelta validate) ⟨[], []⟩

/-- Events yielded by the streaming endpoint: one per validated record, the
"no resources were generated" sentinel, or the error event of the outer
`except` branch (unreachable in this pure model — kept so that its absence
is expressible). -/
inductive StreamEvent (R : Type) where
  | record (r : R) : StreamEvent R
  | noticeNoRecords : StreamEvent R
  | fatalError (msg : List Char) : StreamEvent R
deriving DecidableEq

/-- The full streaming endpoint on the delta events of one stream: yield
each validated record as it closes; at `response.done` the drain step only
logs (an unterminated fragment is discarded); after the loop, if no record
was ever emitted, yield the single sentinel notification. -/
def runStream (validate : List Char → Option R) (deltas : List (List Char)) :
    List (StreamEvent R) :=
  let st := processDeltas validate deltas
  (st.records.map StreamEvent.record) ++
    (if st.records.isEmpty then [StreamEvent.noticeNoRecords] else [])

/-- Outcome of one schema validation (spec §3 `ValidationOutcome`). -/
inductive VOutcome (T : Type) where
  | valid (v : T) : VOutcome T
  | invalid (errors raw : List Char) : VOutcome T

/-- The error-feedback part of the prompt state (spec §3 `PromptState`):
the variables `error_message` and `invalid_replies` fed back into the
prompt builder on a retry. -/
structure PromptState where
  error_message : Option (List Char)
  invalid_replies : Option (List Char)
deriving DecidableEq, Repr

/-- Result of the retry orchestration (spec §4.1). -/
inductive RetryResult (T : Type) where
  | done (v : T) : RetryResult T
  | exhausted (errors raw : List Char) : RetryResult T

/-- Modelled from the spec: the blocking-mode retry orchestration
(`RetryOrchestrator`, spec §4.1).  The concrete loop lives in the Haystack
`Pipeline` graph of `PipelineWrapper.setup` together with the
`LlmOutputValidator` component of `src/common/components.py`, which is not
part of this snapshot.  `gen i st` is the generator's reply on attempt
`i` given the current prompt state, `validate` the schema validator;
the first argument of the recursion is the number of attempts still
allowed.  On an invalid reply with attempts remaining, `error_message`
and `invalid_replies` are set from the failure and the loop re-renders;
on the last allowed attempt the last `Invalid` outcome is returned as the
terminal error.  Returns the prompt states passed to the generator (one
per attempt, in order) and the result. -/
def retryTrace (gen : Nat → PromptState → List Char)
    (validate : List Char → VOutcome T) :
    Nat → Nat → PromptState → List PromptState × RetryResult T
  | 0, _, _ => ([], .exhausted [] [])
  | n + 1, i, st =>
    match validate (gen i st) with
    | .valid v => ([st], .done v)
    | .invalid e r =>
      if n = 0 then ([st], .exhausted e r)
      else
        let next := retryTrace gen validate n (i + 1) ⟨some e, some r⟩
        (st :: next.1, next.2)

/-- Modelled from the spec: run the retry orchestration with the given
retry budget, starting from an empty error context. -/
def runRetry (gen : Nat → PromptState → List Char)
    (validate : List Char → VOutcome T) (budget : Nat) :
    List PromptState × RetryResult T :=
  retryTrace gen validate budget 0 ⟨none, none⟩

/-- Key of the `ResourceList` wrapper model. -/
def keyResources : List Char := "resources".data

/-- Model of `ResourceList` validation (the blocking referrals pipeline
validates replies against `ResourceList`, a `{"resources": [...]}`
wrapper). -/
def resourceListFromJson : Json → Option (List Resource)
  | .obj ms =>
    match lookupLast ms keyResources with
    | some (.arr xs) => allSome resourceFromJson xs
    | _ => none
  | _ => none

/-- Modelled from the spec: the `SchemaValidator` of the blocking referrals
pipeline (`LlmOutputValidator(ResourceList)` in `src/common/components.py`,
not part of this snapshot): parse the raw reply and validate it against
`ResourceList`, reporting failures with the offending text. -/
def resourceListValidate (reply : List Char) : VOutcome (List Resource) :=
  match parseJson reply with
  | none => .invalid "Invalid JSON".data reply
  | some j =>
    match resourceListFromJson j with
    | some rs => .valid rs
    | none => .invalid "Schema mismatch".data reply

/-- Result dict of the action-plan blocking endpoint: `_run` returns
`{"response": replies[0].text}`. -/
structure ActionPlanResponse where
  response : List Char
deriving DecidableEq, Repr

/-- The action-plan blocking pipeline (`PipelineWrapper._run` of
`generate_action_plan/pipeline_wrapper.py`): the graph built in `setup`
is `prompt_builder → llm → logger` — it contains no validator component —
and `_run` returns the generator's raw reply text.  The prompt rendering
and the generator are external collaborators, abstracted as `llm` applied
to the rendered prompt. -/
def actionPlanRun (llm : List Char → List Char) (prompt : List Char) :
    ActionPlanResponse :=
  ⟨llm prompt⟩

/-- An element of the `resources` argument of `get_resources`: either an
already-constructed `Resource` object or a raw dict (parsed JSON). -/
inductive ResInput where
  | res (r : Resource) : ResInput
  | dict (j : Json) : ResInput

/-- `Resource(**res)` applied to one element of the list: a dict is
validated against the model; splatting a non-mapping (an existing
`Resource` object) raises `TypeError`. -/
def parseElem : ResInput → Option Resource
  | .res _ => none
  | .dict j => resourceFromJson j

/-- `get_resources` of `generate_action_plan/pipeline_wrapper.py`
(lines 275–281): an empty list returns `[]`; if the first element is a
`Resource` instance the whole list is returned unchanged; otherwise every
element is re-parsed via `Resource(**res)` (`none` models the raised
exception). -/
def get_resources : List ResInput → Option (List ResInput)
  | [] => some []
  | .res r :: rest => some (.res r :: rest)
  | .dict j :: rest => (allSome parseElem (.dict j :: rest)).map (List.map .res)

/-- A single lowercase-hex digit. -/
def hexDigitChar (n : Nat) : Char :=
  if n < 10 then Char.ofNat ('0'.toNat + n) else Char.ofNat ('a'.toNat + n - 10)

/-- JSON string escaping used by the modelled renderer: escape the quote,
the backslash, and control characters (as `\u00XX`); everything else is
emitted verbatim. -/
def escChar (c : Char) : List Char :=
  if c = '"' then ['\\', '"']
  else if c = '\\' then ['\\', '\\']
  else if c.toNat < 32 then
    ['\\', 'u', '0', '0', hexDigitChar (c.toNat / 16), hexDigitChar (c.toNat % 16)]
  else [c]

/-- Escape a whole string. -/
def escString (s : List Char) : List Char := (s.map escChar).flatten

/-- A JSON string literal. -/
def encStr (s : List Char) : List Char := '"' :: escString s ++ ['"']

/-- Comma-separated concatenation. -/
def commaSep : List (List Char) → List Char
  | [] => []
  | [x] => x
  | x :: y :: rest => x ++ ',' :: commaSep (y :: rest)

/-- A JSON array of string literals. -/
def encStrList (ss : List (List Char)) : List Char :=
  '[' :: commaSep (ss.map encStr) ++ [']']

/-- JSON encoding of an optional string (`null` when absent). -/
def encOptStr : Option (List Char) → List Char
  | none => "null".data
  | some s => encStr s

/-- JSON encoding of an optional referral type. -/
def encOptRt : Option ReferralType → List Char
  | none => "null".data
  | some t => encStr (rtValChars t)

/-- Modelled from the spec: "rendering it into the streaming wire format
(`---RESOURCE_START---<JSON object>---RESOURCE_END---`)" — the repository
contains no renderer (the wire format is produced by the language model),
so the record's JSON encoding is modelled canonically: the model's fields
in declaration order, compactly separated, strings escaped as in
`escChar`. -/
def encodeResource (r : Resource) : List Char :=
  '\x7b' :: commaSep
    [ encStr keyName ++ ':' :: encStr r.name
    , encStr keyAddresses ++ ':' :: encStrList r.addresses
    , encStr keyPhones ++ ':' :: encStrList r.phones
    , encStr keyEmails ++ ':' :: encStrList r.emails
    , encStr keyWebsite ++ ':' :: encOptStr r.website
    , encStr keyDescription ++ ':' :: encStr r.description
    , encStr keyJustification ++ ':' :: encStr r.justification
    , encStr keyReferralType ++ ':' :: encOptRt r.referral_type
    ] ++ ['\x7d']

/-- The `Json` value that `json.loads` yields on `encodeResource r`. -/
def toJsonR (r : Resource) : Json :=
  .obj
    [ (keyName, .str r.name)
    , (keyAddresses, .arr (r.addresses.map .str))
    , (keyPhones, .arr (r.phones.map .str))
    , (keyEmails, .arr (r.emails.map .str))
    , (keyWebsite, match r.website with | none => .null | some w => .str w)
    , (keyDescription, .str r.description)
    , (keyJustification, .str r.justification)
    , (keyReferralType, match r.referral_type with | none => .null | some t => .str (rtValChars t))
    ]

/-- A payload is well framed when the only occurrence of the end marker in
its frame is the frame's own closing marker (stated through the scanner's
`findSub`: the first end marker of the frame is the closing one; no later
occurrence fits inside the frame). -/
def framedPayload (p : List Char) : Prop :=
  findSub endMarker (frameOf p) = some (startMarker.length + p.length)

instance (p : List Char) : Decidable (framedPayload p) := by
  unfold framedPayload; infer_instance

/-- A sample schema-valid resource used as concrete test data. -/
def sampleResource : Resource :=
  { name := "A".data
  , addresses := ["123 Main St".data]
  , phones := []
  , emails := []
  , website := none
  , description := "d".data
  , justification := "j".data
  , referral_type := none }

/-- A second sample resource. -/
def sampleResourceB : Resource :=
  { name := "B".data
  , addresses := []
  , phones := ["555-1234".data]
  , emails := []
  , website := some "https://example.com".data
  , description := "dB".data
  , justification := "jB".data
  , referral_type := some .external }

/-- A schema-valid resource whose name contains the end marker — its JSON
encoding therefore contains the end marker. -/
def markerNameResource : Resource :=
  { name := "---RESOURCE_END---".data
  , addresses := []
  , phones := []
  , emails := []
  , website := none
  , description := "d".data
  , justification := "j".data
  , referral_type := none }

/-! ### Occurrence lemmas for `findSub` -/

theorem findSub_some_occurs {pat l : List Char} {i : Nat}
    (h : findSub pat l = some i) : occursAt pat l i := by
  induction l generalizing i with
  | nil =>
    unfold findSub at h
    by_cases hp : pat.isEmpty <;> simp [hp] at h
    subst h
    simp [occursAt, List.isEmpty_iff.mp hp]
  | cons c rest ih =>
    unfold findSub at h
    by_cases hp : pat.isPrefixOf (c :: rest)
    · simp [hp] at h
      subst h
      simpa [occursAt] using (List.isPrefixOf_iff_prefix).mp hp
    · simp [hp] at h
      obtain ⟨j, hj, rfl⟩ := h
      simpa [occursAt] using ih hj

theorem findSub_some_min {pat l : List Char} {i : Nat}
    (h : findSub pat l = some i) : ∀ j, j < i → ¬ occursAt pat l j := by
  induction l generalizing i with
  | nil =>
    unfold findSub at h
    by_cases hp : pat.isEmpty <;> simp [hp] at h
    subst h; omega
  | cons c rest ih =>
    unfold findSub at h
    by_cases hp : pat.isPrefixOf (c :: rest)
    · simp [hp] at h; subst h; omega
    · simp [hp] at h
      obtain ⟨i₀, hi₀, rfl⟩ := h
      intro j hj
      cases j with
      | zero =>
        intro hocc
        exact hp ((List.isPrefixOf_iff_prefix).mpr (by simpa [occursAt] using hocc))
      | succ j₀ =>
        intro hocc
        exact ih hi₀ j₀ (by omega) (by simpa [occursAt] using hocc)

theorem findSub_none_no_occurs {pat l : List Char}
    (h : findSub pat l = none) : ∀ i, ¬ occursAt pat l i := by
  induction l with
  | nil =>
    unfold findSub at h
    by_cases hp : pat.isEmpty <;> simp [hp] at h
    intro i hocc
    have : pat <+: ([] : List Char) := by simpa [occursAt] using hocc
    have : pat = [] := List.prefix_nil.mp this
    simp [this, List.isEmpty_iff] at hp
  | cons c rest ih =>
    unfold findSub at h
    by_cases hp : pat.isPrefixOf (c :: rest)
    · simp [hp] at h
    · simp [hp] at h
      intro i hocc
      cases i with
      | zero =>
        exact hp ((List.isPrefixOf_iff_prefix).mpr (by simpa [occursAt] using hocc))
      | succ i₀ =>
        exact ih h i₀ (by simpa [occursAt] using hocc)

theorem findSub_eq_some_iff {pat l : List Char} {i : Nat} :
    findSub pat l = some i ↔ firstOccurAt pat l i := by
  constructor
  · intro h
    exact ⟨findSub_some_occurs h, findSub_some_min h⟩
  · rintro ⟨hocc, hmin⟩
    cases hf : findSub pat l with
    | none => exact absurd hocc (findSub_none_no_occurs hf i)
    | some k =>
      rcases Nat.lt_trichotomy k i with hlt | heq | hgt
      · exact absurd (findSub_some_occurs hf) (hmin k hlt)
      · simp [heq]
      · exact absurd hocc (findSub_some_min hf i hgt)

theorem occursAt_bound {pat l : List Char} {i : Nat} (hne : pat ≠ [])
    (h : occursAt pat l i) : i + pat.length ≤ l.length := by
  have hlen : pat.length ≤ (l.drop i).length := h.length_le
  rw [List.length_drop] at hlen
  have hpos : 0 < pat.length := List.length_pos.mpr hne
  omega

theorem occursAt_getElem {pat l : List Char} {i k : Nat}
    (h : occursAt pat l i) (hk : k < pat.length) :
    l[i + k]? = pat[k]? := by
  obtain ⟨t, ht⟩ := h
  have h1 : (l.drop i)[k]? = l[i + k]? := List.getElem?_drop l i k
  rw [← h1, ← ht, List.getElem?_append]
  simp [hk]

/-- A prefix of an append no longer than the first part is a prefix of the
first part. -/
theorem pref_of_append_le {pat x y : List Char}
    (h : pat <+: x ++ y) (hlen : pat.length ≤ x.length) : pat <+: x := by
  obtain ⟨t, ht⟩ := h
  have : pat = (x ++ y).take pat.length := by
    rw [← ht, List.take_append_eq_append_take]
    simp
  rw [this, List.take_append_eq_append_take]
  have h0 : pat.length - x.length = 0 := by omega
  rw [h0]
  simp [List.take_prefix]

theorem occursAt_append_of {pat x y : List Char} {i : Nat}
    (h : occursAt pat x i) : occursAt pat (x ++ y) i := by
  unfold occursAt at h ⊢
  rw [List.drop_append_eq_append_drop]
  exact h.trans (List.prefix_append _ _)

theorem occursAt_of_append {pat x y : List Char} {i : Nat}
    (h : occursAt pat (x ++ y) i) (hle : i + pat.length ≤ x.length) :
    occursAt pat x i := by
  unfold occursAt at h ⊢
  rw [List.drop_append_eq_append_drop] at h
  have h0 : i - x.length = 0 := by omega
  exact pref_of_append_le h (by simp; omega)

theorem occursAt_append_shift {pat x y : List Char} {i : Nat}
    (h : occursAt pat (x ++ y) i) (hge : x.length ≤ i) :
    occursAt pat y (i - x.length) := by
  unfold occursAt at h ⊢
  rw [List.drop_append_eq_append_drop, List.drop_eq_nil_of_le hge] at h
  simpa using h

theorem occursAt_shift_append {pat x y : List Char} {i : Nat}
    (h : occursAt pat y i) : occursAt pat (x ++ y) (x.length + i) := by
  unfold occursAt at h ⊢
  rw [List.drop_append_eq_append_drop, List.drop_eq_nil_of_le (by omega)]
  simpa [Nat.add_sub_cancel_left] using h

theorem findSub_append_some {pat : List Char} (hne : pat ≠ []) {b : List Char}
    {i : Nat} (h : findSub pat b = some i) (c : List Char) :
    findSub pat (b ++ c) = some i := by
  rw [findSub_eq_some_iff] at h ⊢
  obtain ⟨hocc, hmin⟩ := h
  refine ⟨occursAt_append_of hocc, ?_⟩
  intro j hj hoccj
  have hib : i + pat.length ≤ b.length := occursAt_bound hne hocc
  have hjb : j + pat.length ≤ b.length := by omega
  exact hmin j hj (occursAt_of_append hoccj hjb)

theorem containsSub_false_no_occurs {pat l : List Char}
    (h : containsSub pat l = false) : ∀ i, ¬ occursAt pat l i := by
  unfold containsSub at h
  cases hf : findSub pat l with
  | none => exact findSub_none_no_occurs hf
  | some k => simp [hf] at h

theorem occurs_containsSub {pat l : List Char} {i : Nat}
    (h : occursAt pat l i) : containsSub pat l = true := by
  unfold containsSub
  cases hf : findSub pat l with
  | none => exact absurd h (findSub_none_no_occurs hf i)
  | some k => rfl

/-! ### Scan-loop lemmas -/

theorem startMarker_ne_nil : startMarker ≠ [] := by decide

theorem endMarker_ne_nil : endMarker ≠ [] := by decide

theorem scanStep_none_of_nil (validate : List Char → Option R) :
    scanStep validate [] = none := by
  have : findSub endMarker [] = none := by decide
  simp [scanStep, this]

/-- Bounds delivered by a firing scan step: both markers lie inside the
buffer and the remaining buffer is strictly shorter. -/
theorem scanStep_bounds {validate : List Char → Option R} {b : List Char}
    {em : List R} {b' : List Char}
    (h : scanStep validate b = some (em, b')) :
    ∃ e s, findSub endMarker b = some e ∧ findSub startMarker b = some s ∧
      e + endMarker.length ≤ b.length ∧ s + startMarker.length ≤ b.length ∧
      b' = b.drop (e + endMarker.length) ∧
      em = (validate (pyStrip ((b.drop (s + startMarker.length)).take
        (e - (s + startMarker.length))))).toList := by
  unfold scanStep at h
  cases he : findSub endMarker b with
  | none => simp [he] at h
  | some e =>
    cases hs : findSub startMarker b with
    | none => simp [he, hs] at h
    | some s =>
      simp [he, hs] at h
      obtain ⟨hem, hb'⟩ := h
      refine ⟨e, s, rfl, rfl, ?_, ?_, hb'.symm, hem.symm⟩
      · exact occursAt_bound endMarker_ne_nil (findSub_some_occurs he)
      · exact occursAt_bound startMarker_ne_nil (findSub_some_occurs hs)

theorem scanStep_shorter {validate : List Char → Option R} {b : List Char}
    {em : List R} {b' : List Char}
    (h : scanStep validate b = some (em, b')) : b'.length < b.length := by
  obtain ⟨e, s, _, _, hlen, _, hb', _⟩ := scanStep_bounds h
  subst hb'
  rw [List.length_drop]
  have : endMarker.length = 18 := by decide
  omega

theorem scanLoop_stable (validate : List Char → Option R) :
    ∀ n, ∀ b : List Char, b.length = n → ∀ f g, n ≤ f → n ≤ g →
      scanLoop validate f b = scanLoop validate g b := by
  intro n
  induction n using Nat.strong_induction_on with
  | _ n ih =>
    intro b hb f g hf hg
    match f, g with
    | 0, 0 => rfl
    | 0, g + 1 =>
      have : b = [] := by
        cases b with
        | nil => rfl
        | cons c t => simp at hb; omega
      subst this
      simp [scanLoop, scanStep_none_of_nil]
    | f + 1, 0 =>
      have : b = [] := by
        cases b with
        | nil => rfl
        | cons c t => simp at hb; omega
      subst this
      simp [scanLoop, scanStep_none_of_nil]
    | f + 1, g + 1 =>
      show scanLoop validate (f + 1) b = scanLoop validate (g + 1) b
      unfold scanLoop
      cases hstep : scanStep validate b with
      | none => rfl
      | some eb =>
        obtain ⟨em, b'⟩ := eb
        have hlt : b'.length < b.length := scanStep_shorter hstep
        have := ih b'.length (by omega) b' rfl f g (by omega) (by omega)
        simp [this]

/-- The defining unfolding of `scan`: one step, then recurse on the
shorter buffer. -/
theorem scan_eq (validate : List Char → Option R) (b : List Char) :
    scan validate b =
      match scanStep validate b with
      | none => ([], b)
      | some eb => (eb.1 ++ (scan validate eb.2).1, (scan validate eb.2).2) := by
  cases hstep : scanStep validate b with
  | none =>
    unfold scan
    cases hb : b.length with
    | zero => simp [scanLoop]
    | succ m => simp [scanLoop, hstep]
  | some eb =>
    obtain ⟨em, b'⟩ := eb
    have hlt : b'.length < b.length := scanStep_shorter hstep
    unfold scan
    cases hb : b.length with
    | zero => omega
    | succ m =>
      have hstable : scanLoop validate m b' = scanLoop validate b'.length b' :=
        scanLoop_stable validate b'.length b' rfl m b'.length (by omega) (by omega)
      simp [scanLoop, hstep, hstable]

theorem scan_of_step_none {validate : List Char → Option R} {b : List Char}
    (h : scanStep validate b = none) : scan validate b = ([], b) := by
  rw [scan_eq, h]

theorem scan_no_end {validate : List Char → Option R} {b : List Char}
    (h : findSub endMarker b = none) : scan validate b = ([], b) :=
  scan_of_step_none (by simp [scanStep, h])

/-- The buffer left by a scan is a fixpoint: scanning it again emits
nothing and leaves it unchanged. -/
theorem scan_fix (validate : List Char → Option R) :
    ∀ n, ∀ b : List Char, b.length = n →
      scan validate (scan validate b).2 = ([], (scan validate b).2) := by
  intro n
  induction n using Nat.strong_induction_on with
  | _ n ih =>
    intro b hb
    rw [scan_eq validate b]
    cases hstep : scanStep validate b with
    | none => simpa using scan_of_step_none hstep
    | some eb =>
      obtain ⟨em, b'⟩ := eb
      have hlt : b'.length < b.length := scanStep_shorter hstep
      simpa using ih b'.length (by omega) b' rfl

/-- A firing scan step is unchanged by appending more input: the first
occurrences of both markers are unchanged, the extracted slice lies inside
the old buffer, and the appended text survives at the end of the new
buffer. -/
theorem scanStep_append {validate : List Char → Option R} {b : List Char}
    {em : List R} {b' : List Char}
    (h : scanStep validate b = some (em, b')) (c : List Char) :
    scanStep validate (b ++ c) = some (em, b' ++ c) := by
  obtain ⟨e, s, he, hs, helen, hslen, hb', hem⟩ := scanStep_bounds h
  have he' : findSub endMarker (b ++ c) = some e :=
    findSub_append_some endMarker_ne_nil he c
  have hs' : findSub startMarker (b ++ c) = some s :=
    findSub_append_some startMarker_ne_nil hs c
  unfold scanStep
  rw [he', hs']
  have hslice :
      ((b ++ c).drop (s + startMarker.length)).take (e - (s + startMarker.length)) =
      (b.drop (s + startMarker.length)).take (e - (s + startMarker.length)) := by
    rw [List.drop_append_eq_append_drop]
    have h0 : s + startMarker.length - b.length = 0 := by omega
    rw [h0, List.drop_zero, List.take_append_eq_append_take]
    have h1 : e - (s + startMarker.length) - (b.drop (s + startMarker.length)).length = 0 := by
      rw [List.length_drop]
      have : endMarker.length = 18 := by decide
      omega
    rw [h1, List.take_zero, List.append_nil]
  have hdrop : (b ++ c).drop (e + endMarker.length) =
      b.drop (e + endMarker.length) ++ c := by
    rw [List.drop_append_eq_append_drop]
    have h0 : e + endMarker.length - b.length = 0 := by omega
    rw [h0, List.drop_zero]
  simp only [hslice, hdrop]
  rw [hem, hb']

/-- Composition of scans: scanning `b ++ c` first performs exactly the
steps of scanning `b`, then scans the leftover buffer with `c` appended. -/
theorem scan_compose (validate : List Char → Option R) :
    ∀ n, ∀ b c : List Char, b.length = n →
      scan validate (b ++ c) =
        ((scan validate b).1 ++ (scan validate ((scan validate b).2 ++ c)).1,
          (scan validate ((scan validate b).2 ++ c)).2) := by
  intro n
  induction n using Nat.strong_induction_on with
  | _ n ih =>
    intro b c hb
    cases hstep : scanStep validate b with
    | none =>
      rw [scan_of_step_none hstep]
      simp
    | some eb =>
      obtain ⟨em, b'⟩ := eb
      have hlt : b'.length < b.length := scanStep_shorter hstep
      have hstep' := scanStep_append hstep c
      rw [scan_eq validate (b ++ c), hstep']
      rw [scan_eq validate b, hstep]
      have hIH := ih b'.length (by omega) b' c rfl
      simp only [hIH, List.append_assoc]

/-- Driving the extractor over a list of delta events from a fixpoint
buffer is the same as scanning the concatenation. -/
theorem processDelta_fold (validate : List Char → Option R) :
    ∀ (ds : List (List Char)) (b : List Char) (rs : List R),
      scan validate b = ([], b) →
      ds.foldl (processDelta validate) ⟨b, rs⟩ =
        ⟨(scan validate (b ++ ds.flatten)).2,
          rs ++ (scan validate (b ++ ds.flatten)).1⟩ := by
  intro ds
  induction ds with
  | nil =>
    intro b rs hfix
    simp [hfix]
  | cons d ds ih =>
    intro b rs hfix
    by_cases hd : d.isEmpty
    · have hdnil : d = [] := List.isEmpty_iff.mp hd
      subst hdnil
      simp only [List.foldl_cons, processDelta, List.isEmpty_nil, if_true]
      rw [ih b rs hfix]
      simp
    · have hd' : d.isEmpty = false := by simpa using hd
      simp only [List.foldl_cons, processDelta, hd', Bool.false_eq_true, if_false]
      have hfix' : scan validate (scan validate (b ++ d)).2 =
          ([], (scan validate (b ++ d)).2) :=
        scan_fix validate (b ++ d).length (b ++ d) rfl
      rw [ih (scan validate (b ++ d)).2 (rs ++ (scan validate (b ++ d)).1) hfix']
      have hcomp := scan_compose validate (b ++ d).length (b ++ d) ds.flatten rfl
      simp only [List.flatten_cons, ← List.append_assoc]
      rw [hcomp]
      simp

/-- Chunk invariance: the records and final buffer of the extractor depend
only on the concatenation of the delta events, not on how the text is
split across them. -/
theorem processDeltas_eq_scan (validate : List Char → Option R)
    (deltas : List (List Char)) :
    processDeltas validate deltas =
      ⟨(scan validate deltas.flatten).2, (scan validate deltas.flatten).1⟩ := by
  unfold processDeltas
  have h0 : scan validate [] = ([], []) := by
    apply scan_no_end
    decide
  have := processDelta_fold validate deltas [] [] h0
  simpa using this

/-! ### Scanning framed payloads -/

theorem startMarker_length : startMarker.length = 20 := by decide

theorem endMarker_length : endMarker.length = 18 := by decide

theorem frameOf_length (p : List Char) : (frameOf p).length = p.length + 38 := by
  simp [frameOf, startMarker_length, endMarker_length]
  omega

/-- Scanning a well-framed payload followed by anything: one step extracts
exactly the stripped payload, hands it to the validator, and continues on
the remaining input. -/
theorem frame_scan (validate : List Char → Option R) (p rest : List Char)
    (hp : framedPayload p) :
    scan validate (frameOf p ++ rest) =
      ((validate (pyStrip p)).toList ++ (scan validate rest).1,
        (scan validate rest).2) := by
  have hocc : occursAt endMarker (frameOf p ++ rest) (startMarker.length + p.length) := by
    unfold occursAt
    have hshape : frameOf p ++ rest = (startMarker ++ p) ++ (endMarker ++ rest) := by
      simp [frameOf]
    rw [hshape]
    have hlen : startMarker.length + p.length = (startMarker ++ p).length := by simp
    rw [hlen, List.drop_left]
    exact List.prefix_append _ _
  have hmin : ∀ j, j < startMarker.length + p.length →
      ¬ occursAt endMarker (frameOf p ++ rest) j := by
    intro j hj hoccj
    have hjb : j + endMarker.length ≤ (frameOf p).length := by
      rw [frameOf_length, endMarker_length]
      rw [startMarker_length] at hj
      omega
    exact findSub_some_min hp j hj (occursAt_of_append hoccj hjb)
  have he : findSub endMarker (frameOf p ++ rest) = some (startMarker.length + p.length) :=
    findSub_eq_some_iff.mpr ⟨hocc, hmin⟩
  have hs : findSub startMarker (frameOf p ++ rest) = some 0 := by
    apply findSub_eq_some_iff.mpr
    constructor
    · unfold occursAt
      rw [List.drop_zero]
      have hshape : frameOf p ++ rest = startMarker ++ (p ++ endMarker ++ rest) := by
        simp [frameOf]
      rw [hshape]
      exact List.prefix_append _ _
    · omega
  have hstep : scanStep validate (frameOf p ++ rest) =
      some ((validate (pyStrip p)).toList, rest) := by
    have hcand : ((frameOf p ++ rest).drop (0 + startMarker.length)).take
        (startMarker.length + p.length - (0 + startMarker.length)) = p := by
      have hshape : frameOf p ++ rest = startMarker ++ (p ++ (endMarker ++ rest)) := by
        simp [frameOf]
      rw [hshape]
      have h20 : 0 + startMarker.length = startMarker.length := by omega
      rw [h20, List.drop_left]
      have hlen : startMarker.length + p.length - startMarker.length = p.length := by omega
      rw [hlen, List.take_left]
    have hdrop : (frameOf p ++ rest).drop (startMarker.length + p.length + endMarker.length) =
        rest := by
      have hshape : frameOf p ++ rest = (startMarker ++ p ++ endMarker) ++ rest := by
        simp [frameOf]
      rw [hshape]
      have hlen : startMarker.length + p.length + endMarker.length =
          (startMarker ++ p ++ endMarker).length := by simp; omega
      rw [hlen, List.drop_left]
    simp only [scanStep, he, hs]
    rw [hcand, hdrop]
  rw [scan_eq, hstep]

/-- Iterated `frame_scan`: a sequence of well-framed payloads, all dropped
by the validator, contributes nothing. -/
theorem frames_dropped_scan (validate : List Char → Option R) :
    ∀ (bads : List (List Char)),
      (∀ q ∈ bads, framedPayload q ∧ validate (pyStrip q) = none) →
      ∀ t : List Char,
        scan validate ((bads.map frameOf).flatten ++ t) = scan validate t := by
  intro bads
  induction bads with
  | nil => intro _ t; simp
  | cons q qs ih =>
    intro h t
    obtain ⟨hq, hv⟩ := h q (by simp)
    have hqs : ∀ q₀ ∈ qs, framedPayload q₀ ∧ validate (pyStrip q₀) = none := by
      intro q₀ hq₀; exact h q₀ (by simp [hq₀])
    simp only [List.map_cons, List.flatten_cons, List.append_assoc]
    rw [frame_scan validate q ((qs.map frameOf).flatten ++ t) hq, hv, ih hqs t]
    simp

theorem scan_nil (validate : List Char → Option R) : scan validate [] = ([], []) := by
  apply scan_no_end
  decide

/-! ### Retry-orchestration lemmas -/

theorem rangeMapShift {α : Type} (f : Nat → α) (m i₀ : Nat) :
    (List.range (m + 1)).map (fun j => f (i₀ + j)) =
      f i₀ :: (List.range m).map (fun j => f (i₀ + 1 + j)) := by
  rw [List.range_succ_eq_map, List.map_cons, List.map_map]
  congr 1
  apply List.map_congr_left
  intro a _
  show f (i₀ + Nat.succ a) = f (i₀ + 1 + a)
  exact congrArg f (by omega)

/-- All-invalid runs: with `rem` allowed attempts, the loop makes exactly
`rem` attempts (the initial state plus one error-feedback state per retry)
and exhausts with the failure of the last attempt. -/
theorem retryTrace_all_invalid {T : Type} (gen : Nat → PromptState → List Char)
    (validate : List Char → VOutcome T) (err raw : Nat → List Char)
    (hinv : ∀ i st, validate (gen i st) = .invalid (err i) (raw i)) :
    ∀ rem, 1 ≤ rem → ∀ i₀ st₀,
      retryTrace gen validate rem i₀ st₀ =
        (st₀ :: (List.range (rem - 1)).map
            (fun j => ⟨some (err (i₀ + j)), some (raw (i₀ + j))⟩),
          .exhausted (err (i₀ + (rem - 1))) (raw (i₀ + (rem - 1)))) := by
  intro rem
  induction rem with
  | zero => omega
  | succ n ih =>
    intro _ i₀ st₀
    show retryTrace gen validate (n + 1) i₀ st₀ = _
    unfold retryTrace
    rw [hinv i₀ st₀]
    cases n with
    | zero => simp
    | succ m =>
      have hne : m + 1 ≠ 0 := by omega
      simp only [hne, if_false]
      rw [ih (by omega) (i₀ + 1) ⟨some (err i₀), some (raw i₀)⟩]
      simp only [Nat.add_sub_cancel]
      rw [rangeMapShift (fun j => (⟨some (err j), some (raw j)⟩ : PromptState)) m i₀]
      have h1 : i₀ + 1 + m = i₀ + (m + 1) := by omega
      rw [h1]

/-- Invalid on attempts `0..k-1`, valid on attempt `k`: the loop succeeds
after exactly `k + 1` attempts and each retry state carries the previous
attempt's failure. -/
theorem retryTrace_then_valid {T : Type} (gen : Nat → PromptState → List Char)
    (validate : List Char → VOutcome T) (err raw : Nat → List Char) (v : T) :
    ∀ k i₀, (∀ j st, j < k → validate (gen (i₀ + j) st) = .invalid (err (i₀ + j)) (raw (i₀ + j))) →
      (∀ st, validate (gen (i₀ + k) st) = .valid v) →
      ∀ rem, k < rem → ∀ st₀,
        retryTrace gen validate rem i₀ st₀ =
          (st₀ :: (List.range k).map
              (fun j => ⟨some (err (i₀ + j)), some (raw (i₀ + j))⟩),
            .done v) := by
  intro k
  induction k with
  | zero =>
    intro i₀ _ hval rem hrem st₀
    obtain ⟨n, rfl⟩ : ∃ n, rem = n + 1 := ⟨rem - 1, by omega⟩
    unfold retryTrace
    have h : validate (gen i₀ st₀) = .valid v := by simpa using hval st₀
    rw [h]
    simp
  | succ k ih =>
    intro i₀ hinv hval rem hrem st₀
    obtain ⟨n, rfl⟩ : ∃ n, rem = n + 1 := ⟨rem - 1, by omega⟩
    unfold retryTrace
    have h0 : validate (gen i₀ st₀) = .invalid (err i₀) (raw i₀) := by
      simpa using hinv 0 st₀ (by omega)
    rw [h0]
    have hne : n ≠ 0 := by omega
    simp only [hne, if_false]
    have hinv' : ∀ j st, j < k →
        validate (gen (i₀ + 1 + j) st) = .invalid (err (i₀ + 1 + j)) (raw (i₀ + 1 + j)) := by
      intro j st hj
      have := hinv (j + 1) st (by omega)
      rw [show i₀ + (j + 1) = i₀ + 1 + j by omega] at this
      exact this
    have hval' : ∀ st, validate (gen (i₀ + 1 + k) st) = .valid v := by
      intro st
      have := hval st
      rw [show i₀ + (k + 1) = i₀ + 1 + k by omega] at this
      exact this
    rw [ih (i₀ + 1) hinv' hval' n (by omega) ⟨some (err i₀), some (raw i₀)⟩]
    rw [rangeMapShift (fun j => (⟨some (err j), some (raw j)⟩ : PromptState)) k i₀]

/-- A successful retry run returns a value the validator accepted. -/
theorem retryTrace_done_valid {T : Type} {gen : Nat → PromptState → List Char}
    {validate : List Char → VOutcome T} :
    ∀ rem i₀ st₀ tr v, retryTrace gen validate rem i₀ st₀ = (tr, .done v) →
      ∃ s, validate s = .valid v := by
  intro rem
  induction rem with
  | zero =>
    intro i₀ st₀ tr v h
    simp [retryTrace] at h
  | succ n ih =>
    intro i₀ st₀ tr v h
    unfold retryTrace at h
    cases hv : validate (gen i₀ st₀) with
    | valid w =>
      rw [hv] at h
      simp at h
      exact ⟨gen i₀ st₀, by rw [hv, h.2]⟩
    | invalid e r =>
      rw [hv] at h
      by_cases hn : n = 0
      · subst hn; simp at h
      · simp only [hn, if_false] at h
        apply ih (i₀ + 1) ⟨some e, some r⟩
          (retryTrace gen validate n (i₀ + 1) ⟨some e, some r⟩).1 v
        have hpair := congrArg Prod.snd h
        simp at hpair
        rw [← hpair]

/-! ### JSON printer/parser round trip -/

theorem skipWs_quote (l : List Char) : skipWs ('"' :: l) = '"' :: l := rfl

theorem skipWs_colon (l : List Char) : skipWs (':' :: l) = ':' :: l := rfl

theorem skipWs_comma (l : List Char) : skipWs (',' :: l) = ',' :: l := rfl

theorem skipWs_rbrack (l : List Char) : skipWs (']' :: l) = ']' :: l := rfl

theorem skipWs_rbrace (l : List Char) : skipWs ('\x7d' :: l) = '\x7d' :: l := rfl

theorem hexVal_hexDigitChar : ∀ n, n < 16 → hexVal (hexDigitChar n) = some n := by decide

theorem psb_quote (rest : List Char) : parseStringBody ('"' :: rest) = some ([], rest) := by
  rw [parseStringBody.eq_def]; rfl

theorem psb_escQuote (X : List Char) :
    parseStringBody ('\\' :: '"' :: X) =
      (parseStringBody X).map (fun sr => ('"' :: sr.1, sr.2)) := by
  rw [parseStringBody.eq_def]; rfl

theorem psb_escBack (X : List Char) :
    parseStringBody ('\\' :: '\\' :: X) =
      (parseStringBody X).map (fun sr => ('\\' :: sr.1, sr.2)) := by
  rw [parseStringBody.eq_def]; rfl

theorem psb_escU (h₃ h₄ : Char) (X : List Char) :
    parseStringBody ('\\' :: 'u' :: '0' :: '0' :: h₃ :: h₄ :: X) =
      (match hexVal '0', hexVal '0', hexVal h₃, hexVal h₄ with
        | some a, some b, some c₃, some d =>
          (parseStringBody X).map
            (fun sr => (Char.ofNat (((a * 16 + b) * 16 + c₃) * 16 + d) :: sr.1, sr.2))
        | _, _, _, _ => none) := by
  rw [parseStringBody.eq_def]; rfl

theorem psb_plain {c : Char} (X : List Char)
    (hq : ¬ c = '"') (hb : ¬ c = '\\') (hc : ¬ c.toNat < 32) :
    parseStringBody (c :: X) = (parseStringBody X).map (fun sr => (c :: sr.1, sr.2)) := by
  rw [parseStringBody.eq_def]
  dsimp only
  rw [if_neg hq, if_neg hb, if_neg hc]

/-- The escape round trip for one string: parsing the escaped body up to
the closing quote recovers the original characters. -/
theorem parseStringBody_esc : ∀ (s rest : List Char),
    parseStringBody (escString s ++ '"' :: rest) = some (s, rest) := by
  intro s
  induction s with
  | nil =>
    intro rest
    have h0 : escString [] = [] := rfl
    rw [h0, List.nil_append, psb_quote]
  | cons c s ih =>
    intro rest
    have hesc : escString (c :: s) = escChar c ++ escString s := by
      simp [escString]
    rw [hesc, List.append_assoc]
    by_cases hq : c = '"'
    · subst hq
      have hshape : escChar '"' = ['\\', '"'] := rfl
      rw [hshape]
      show parseStringBody ('\\' :: '"' :: (escString s ++ '"' :: rest)) = _
      rw [psb_escQuote, ih rest]
      rfl
    · by_cases hb : c = '\\'
      · subst hb
        have hshape : escChar '\\' = ['\\', '\\'] := rfl
        rw [hshape]
        show parseStringBody ('\\' :: '\\' :: (escString s ++ '"' :: rest)) = _
        rw [psb_escBack, ih rest]
        rfl
      · by_cases hc : c.toNat < 32
        · have hshape : escChar c =
              ['\\', 'u', '0', '0', hexDigitChar (c.toNat / 16), hexDigitChar (c.toNat % 16)] := by
            simp [escChar, hq, hb, hc]
          rw [hshape]
          show parseStringBody ('\\' :: 'u' :: '0' :: '0' ::
            hexDigitChar (c.toNat / 16) :: hexDigitChar (c.toNat % 16) ::
            (escString s ++ '"' :: rest)) = _
          rw [psb_escU, hexVal_hexDigitChar (c.toNat / 16) (by omega),
            hexVal_hexDigitChar (c.toNat % 16) (by omega)]
          show (parseStringBody (escString s ++ '"' :: rest)).map
              (fun sr => (Char.ofNat (((0 * 16 + 0) * 16 + c.toNat / 16) * 16 + c.toNat % 16)
                :: sr.1, sr.2)) = _
          rw [ih rest]
          have hcode : ((0 * 16 + 0) * 16 + c.toNat / 16) * 16 + c.toNat % 16 = c.toNat := by
            omega
          rw [hcode, Char.ofNat_toNat]
          rfl
        · have hshape : escChar c = [c] := by
            simp [escChar, hq, hb, hc]
          rw [hshape]
          show parseStringBody (c :: (escString s ++ '"' :: rest)) = _
          rw [psb_plain _ hq hb hc, ih rest]
          rfl

/-- Dispatch: a value starting with a quote is a string. -/
theorem pv_quote (f : Nat) (X : List Char) :
    parseValue (f + 1) ('"' :: X) =
      (parseStringBody X).map (fun sr => (Json.str sr.1, sr.2)) := by
  rw [parseValue.eq_def]; rfl

/-- Dispatch: a value starting with an opening brace. -/
theorem pv_brace (f : Nat) (X : List Char) :
    parseValue (f + 1) ('\x7b' :: X) =
      (match skipWs X with
        | '\x7d' :: r => some (Json.obj [], r)
        | l₂ => parseMembers f l₂ []) := by
  rw [parseValue.eq_def]; rfl

/-- Dispatch: a value starting with an opening bracket. -/
theorem pv_brack (f : Nat) (X : List Char) :
    parseValue (f + 1) ('[' :: X) =
      (match skipWs X with
        | ']' :: r => some (Json.arr [], r)
        | l₂ => parseItems f l₂ []) := by
  rw [parseValue.eq_def]; rfl

/-- Dispatch: the `null` literal. -/
theorem pv_null (f : Nat) (rest : List Char) :
    parseValue (f + 1) ("null".data ++ rest) = some (Json.null, rest) := by
  have h1 : "null".data ++ rest = 'n' :: ("ull".data ++ rest) := rfl
  rw [h1, parseValue.eq_def]
  have h2 : "ull".data.isPrefixOf ("ull".data ++ rest) = true :=
    (List.isPrefixOf_iff_prefix).mpr (List.prefix_append _ _)
  have h3 : ("ull".data ++ rest).drop 3 = rest := by
    have hl : ("ull".data : List Char).length = 3 := rfl
    rw [← hl, List.drop_left]
  show (if "ull".data.isPrefixOf ("ull".data ++ rest)
      then some (Json.null, ("ull".data ++ rest).drop 3) else none) = _
  rw [if_pos h2, h3]

/-- Parsing a printed string literal. -/
theorem pv_encStr (f : Nat) (s rest : List Char) :
    parseValue (f + 1) (encStr s ++ rest) = some (Json.str s, rest) := by
  have h1 : encStr s ++ rest = '"' :: (escString s ++ '"' :: rest) := by
    simp [encStr]
  rw [h1, pv_quote, parseStringBody_esc]
  rfl

/-- Dispatch for a member list starting with a key. -/
theorem pm_quote (f : Nat) (X : List Char) (acc : List (List Char × Json)) :
    parseMembers (f + 1) ('"' :: X) acc =
      (match parseStringBody X with
        | none => none
        | some kr =>
          match skipWs kr.2 with
          | ':' :: r₂ =>
            (match parseValue f r₂ with
              | none => none
              | some vr =>
                match skipWs vr.2 with
                | ',' :: r₄ => parseMembers f r₄ (acc ++ [(kr.1, vr.1)])
                | '\x7d' :: r₄ => some (Json.obj (acc ++ [(kr.1, vr.1)]), r₄)
                | _ => none)
          | _ => none) := by
  rw [parseMembers.eq_def]; rfl

/-- A member whose key parse and colon are consumed. -/
theorem pm_key_colon (f : Nat) (k rX : List Char) (acc : List (List Char × Json)) :
    parseMembers (f + 1) ('"' :: (escString k ++ '"' :: (':' :: rX))) acc =
      (match parseValue f rX with
        | none => none
        | some vr =>
          match skipWs vr.2 with
          | ',' :: r₄ => parseMembers f r₄ (acc ++ [(k, vr.1)])
          | '\x7d' :: r₄ => some (Json.obj (acc ++ [(k, vr.1)]), r₄)
          | _ => none) := by
  rw [pm_quote, parseStringBody_esc]
  rfl

/-- One `"key":value,` step of an object body. -/
theorem pm_step_comma (f : Nat) (k vl tail : List Char) (jv : Json)
    (acc : List (List Char × Json))
    (hv : parseValue f (vl ++ ',' :: tail) = some (jv, ',' :: tail)) :
    parseMembers (f + 1) (encStr k ++ ':' :: (vl ++ ',' :: tail)) acc =
      parseMembers f tail (acc ++ [(k, jv)]) := by
  have h1 : encStr k ++ ':' :: (vl ++ ',' :: tail) =
      '"' :: (escString k ++ '"' :: (':' :: (vl ++ ',' :: tail))) := by
    simp [encStr]
  rw [h1, pm_key_colon, hv]
  rfl

/-- The final `"key":value}` step of an object body. -/
theorem pm_step_close (f : Nat) (k vl tail : List Char) (jv : Json)
    (acc : List (List Char × Json))
    (hv : parseValue f (vl ++ '\x7d' :: tail) = some (jv, '\x7d' :: tail)) :
    parseMembers (f + 1) (encStr k ++ ':' :: (vl ++ '\x7d' :: tail)) acc =
      some (Json.obj (acc ++ [(k, jv)]), tail) := by
  have h1 : encStr k ++ ':' :: (vl ++ '\x7d' :: tail) =
      '"' :: (escString k ++ '"' :: (':' :: (vl ++ '\x7d' :: tail))) := by
    simp [encStr]
  rw [h1, pm_key_colon, hv]
  rfl

/-- Items of a printed array of string literals. -/
theorem pi_strs : ∀ (ss : List (List Char)) (s : List Char) (f : Nat)
    (acc : List Json) (rest : List Char), ss.length + 2 ≤ f →
    parseItems f (commaSep ((s :: ss).map encStr) ++ ']' :: rest) acc =
      some (Json.arr (acc ++ (s :: ss).map Json.str), rest) := by
  intro ss
  induction ss with
  | nil =>
    intro s f acc rest hf
    obtain ⟨g, rfl⟩ : ∃ g, f = g + 1 := ⟨f - 1, by omega⟩
    have h1 : commaSep ([s].map encStr) = encStr s := rfl
    rw [h1, parseItems.eq_def]
    obtain ⟨g₁, rfl⟩ : ∃ g₁, g = g₁ + 1 := ⟨g - 1, by omega⟩
    dsimp only
    rw [pv_encStr g₁ s (']' :: rest)]
    rfl
  | cons s₁ ss ih =>
    intro s f acc rest hf
    obtain ⟨g, rfl⟩ : ∃ g, f = g + 1 := ⟨f - 1, by omega⟩
    have h1 : commaSep ((s :: s₁ :: ss).map encStr) ++ ']' :: rest =
        encStr s ++ ',' :: (commaSep ((s₁ :: ss).map encStr) ++ ']' :: rest) := by
      simp [commaSep]
    rw [h1, parseItems.eq_def]
    obtain ⟨g₁, rfl⟩ : ∃ g₁, g = g₁ + 1 := ⟨g - 1, by omega⟩
    dsimp only
    rw [pv_encStr g₁ s (',' :: (commaSep ((s₁ :: ss).map encStr) ++ ']' :: rest))]
    show parseItems (g₁ + 1) (commaSep ((s₁ :: ss).map encStr) ++ ']' :: rest)
        (acc ++ [Json.str s]) = _
    rw [ih s₁ (g₁ + 1) (acc ++ [Json.str s]) rest (by simp at hf ⊢; omega)]
    simp

/-- Reduction of the bracket dispatch when the first item is a string
literal. -/
theorem match_brack_quote (f : Nat) (Y : List Char) :
    (match skipWs ('"' :: Y) with
      | ']' :: r => some (Json.arr [], r)
      | l₂ => parseItems f l₂ []) = parseItems f ('"' :: Y) [] := rfl

/-- Parsing a printed array of string literals. -/
theorem pv_encStrList (ss : List (List Char)) (f : Nat) (rest : List Char)
    (hf : ss.length + 2 ≤ f) :
    parseValue (f + 1) (encStrList ss ++ rest) =
      some (Json.arr (ss.map Json.str), rest) := by
  have h1 : encStrList ss ++ rest = '[' :: (commaSep (ss.map encStr) ++ ']' :: rest) := by
    simp [encStrList]
  rw [h1, pv_brack]
  cases ss with
  | nil =>
    show (match skipWs (']' :: rest) with
      | ']' :: r => some (Json.arr [], r)
      | l₂ => parseItems f l₂ []) = _
    rw [skipWs_rbrack]
    rfl
  | cons s ss =>
    obtain ⟨Y, hY⟩ : ∃ Y, commaSep ((s :: ss).map encStr) = '"' :: Y := by
      cases ss with
      | nil => exact ⟨escString s ++ ['"'], by simp [commaSep, encStr]⟩
      | cons s₁ ss₁ =>
        refine ⟨escString s ++ ['"'] ++ ',' :: commaSep ((s₁ :: ss₁).map encStr), ?_⟩
        simp [commaSep, encStr]
    have h2 : commaSep ((s :: ss).map encStr) ++ ']' :: rest =
        '"' :: (Y ++ ']' :: rest) := by
      rw [hY]; rfl
    rw [h2, match_brack_quote, ← h2, pi_strs ss s f [] rest (by simp at hf ⊢; omega)]
    simp

/-- Parsing a printed optional string (`null` or a string literal). -/
theorem pv_encOptStr (o : Option (List Char)) (f : Nat) (rest : List Char) :
    parseValue (f + 1) (encOptStr o ++ rest) =
      some ((match o with | none => Json.null | some w => Json.str w), rest) := by
  cases o with
  | none => exact pv_null f rest
  | some w => exact pv_encStr f w rest

/-- Parsing a printed optional referral type. -/
theorem pv_encOptRt (o : Option ReferralType) (f : Nat) (rest : List Char) :
    parseValue (f + 1) (encOptRt o ++ rest) =
      some ((match o with | none => Json.null | some t => Json.str (rtValChars t)), rest) := by
  cases o with
  | none => exact pv_null f rest
  | some t => exact pv_encStr f (rtValChars t) rest

/-- Reduction of the brace dispatch when the first member key follows. -/
theorem match_brace_quote (f : Nat) (Y : List Char) :
    (match skipWs ('"' :: Y) with
      | '\x7d' :: r => some (Json.obj [], r)
      | l₂ => parseMembers f l₂ []) = parseMembers f ('"' :: Y) [] := rfl

/-- Parsing the canonical JSON encoding of a `Resource` recovers its
`Json` value. -/
theorem pv_encodeResource (r : Resource) (m : Nat) (rest : List Char) :
    parseValue (m + r.addresses.length + r.phones.length + r.emails.length + 13)
      (encodeResource r ++ rest) = some (toJsonR r, rest) := by
  have hsh : encodeResource r ++ rest =
      '\x7b' :: (encStr keyName ++ ':' :: (encStr r.name ++ ',' ::
        (encStr keyAddresses ++ ':' :: (encStrList r.addresses ++ ',' ::
          (encStr keyPhones ++ ':' :: (encStrList r.phones ++ ',' ::
            (encStr keyEmails ++ ':' :: (encStrList r.emails ++ ',' ::
              (encStr keyWebsite ++ ':' :: (encOptStr r.website ++ ',' ::
                (encStr keyDescription ++ ':' :: (encStr r.description ++ ',' ::
                  (encStr keyJustification ++ ':' :: (encStr r.justification ++ ',' ::
                    (encStr keyReferralType ++ ':' ::
                      (encOptRt r.referral_type ++ '\x7d' :: rest)))))))))))))))) := by
    simp [encodeResource, commaSep]
  have hM : m + r.addresses.length + r.phones.length + r.emails.length + 13 =
      (m + r.addresses.length + r.phones.length + r.emails.length + 12) + 1 := by omega
  rw [hsh, hM, pv_brace]
  have hq : encStr keyName ++ ':' :: (encStr r.name ++ ',' ::
        (encStr keyAddresses ++ ':' :: (encStrList r.addresses ++ ',' ::
          (encStr keyPhones ++ ':' :: (encStrList r.phones ++ ',' ::
            (encStr keyEmails ++ ':' :: (encStrList r.emails ++ ',' ::
              (encStr keyWebsite ++ ':' :: (encOptStr r.website ++ ',' ::
                (encStr keyDescription ++ ':' :: (encStr r.description ++ ',' ::
                  (encStr keyJustification ++ ':' :: (encStr r.justification ++ ',' ::
                    (encStr keyReferralType ++ ':' ::
                      (encOptRt r.referral_type ++ '\x7d' :: rest))))))))))))))) =
      '"' :: (escString keyName ++ '"' :: (':' :: (encStr r.name ++ ',' ::
        (encStr keyAddresses ++ ':' :: (encStrList r.addresses ++ ',' ::
          (encStr keyPhones ++ ':' :: (encStrList r.phones ++ ',' ::
            (encStr keyEmails ++ ':' :: (encStrList r.emails ++ ',' ::
              (encStr keyWebsite ++ ':' :: (encOptStr r.website ++ ',' ::
                (encStr keyDescription ++ ':' :: (encStr r.description ++ ',' ::
                  (encStr keyJustification ++ ':' :: (encStr r.justification ++ ',' ::
                    (encStr keyReferralType ++ ':' ::
                      (encOptRt r.referral_type ++ '\x7d' :: rest))))))))))))))))) := by
    simp [encStr]
  rw [hq, match_brace_quote, ← hq]
  rw [pm_step_comma (m + r.addresses.length + r.phones.length + r.emails.length + 11)
    keyName _ _ _ _
    (pv_encStr (m + r.addresses.length + r.phones.length + r.emails.length + 10) r.name _)]
  rw [pm_step_comma (m + r.addresses.length + r.phones.length + r.emails.length + 10)
    keyAddresses _ _ _ _
    (pv_encStrList r.addresses (m + r.addresses.length + r.phones.length + r.emails.length + 9)
      _ (by omega))]
  rw [pm_step_comma (m + r.addresses.length + r.phones.length + r.emails.length + 9)
    keyPhones _ _ _ _
    (pv_encStrList r.phones (m + r.addresses.length + r.phones.length + r.emails.length + 8)
      _ (by omega))]
  rw [pm_step_comma (m + r.addresses.length + r.phones.length + r.emails.length + 8)
    keyEmails _ _ _ _
    (pv_encStrList r.emails (m + r.addresses.length + r.phones.length + r.emails.length + 7)
      _ (by omega))]
  rw [pm_step_comma (m + r.addresses.length + r.phones.length + r.emails.length + 7)
    keyWebsite _ _ _ _
    (pv_encOptStr r.website (m + r.addresses.length + r.phones.length + r.emails.length + 6) _)]
  rw [pm_step_comma (m + r.addresses.length + r.phones.length + r.emails.length + 6)
    keyDescription _ _ _ _
    (pv_encStr (m + r.addresses.length + r.phones.length + r.emails.length + 5) r.description _)]
  rw [pm_step_comma (m + r.addresses.length + r.phones.length + r.emails.length + 5)
    keyJustification _ _ _ _
    (pv_encStr (m + r.addresses.length + r.phones.length + r.emails.length + 4) r.justification _)]
  rw [pm_step_close (m + r.addresses.length + r.phones.length + r.emails.length + 4)
    keyReferralType _ _ _ _
    (pv_encOptRt r.referral_type (m + r.addresses.length + r.phones.length + r.emails.length + 3) _)]
  simp [toJsonR]

theorem csLen : ∀ ss : List (List Char),
    ss.length ≤ (commaSep (ss.map encStr)).length + 1 := by
  intro ss
  induction ss with
  | nil => simp [commaSep]
  | cons s ss ih =>
    cases ss with
    | nil => simp [commaSep]
    | cons s₁ ss₁ =>
      have h1 : commaSep ((s :: s₁ :: ss₁).map encStr) =
          encStr s ++ ',' :: commaSep ((s₁ :: ss₁).map encStr) := by
        simp [commaSep]
      rw [h1]
      simp only [List.length_cons, List.length_append] at ih ⊢
      omega

theorem encLen (r : Resource) :
    r.addresses.length + r.phones.length + r.emails.length + 11 ≤
      (encodeResource r).length := by
  have ha := csLen r.addresses
  have hp := csLen r.phones
  have he := csLen r.emails
  simp only [encodeResource, commaSep, encStrList, List.length_cons, List.length_append] at ha hp he ⊢
  omega

/-- `json.loads` on the canonical encoding of a resource yields its `Json`
value (whole-input parse). -/
theorem parseJson_encodeResource (r : Resource) :
    parseJson (encodeResource r) = some (toJsonR r) := by
  have hlen := encLen r
  have hm : (encodeResource r).length + 2 =
      ((encodeResource r).length + 2 -
          (r.addresses.length + r.phones.length + r.emails.length + 13))
        + r.addresses.length + r.phones.length + r.emails.length + 13 := by
    omega
  have hp := pv_encodeResource r
    ((encodeResource r).length + 2 -
      (r.addresses.length + r.phones.length + r.emails.length + 13)) []
  rw [List.append_nil] at hp
  unfold parseJson
  rw [hm, hp]
  rfl

theorem allSome_asStr : ∀ ss : List (List Char),
    allSome asStr (ss.map Json.str) = some ss := by
  intro ss
  induction ss with
  | nil => rfl
  | cons s ss ih => simp [allSome, asStr, ih]

/-- Pydantic validation accepts the `Json` value of any resource and
reconstructs the resource. -/
theorem resourceFromJson_toJsonR (r : Resource) :
    resourceFromJson (toJsonR r) = some r := by
  obtain ⟨name, addresses, phones, emails, website, description, justification, rt⟩ := r
  cases website <;> cases rt <;>
    simp [resourceFromJson, toJsonR, lookupLast, asStr, asStrList, optStrField, rtField,
      allSome_asStr, keyName, keyAddresses, keyPhones, keyEmails, keyWebsite,
      keyDescription, keyJustification, keyReferralType, rtValChars] <;>
    first
      | rfl
      | (rename_i t; cases t <;> rfl)

/-- The extractor's candidate validation accepts the canonical encoding of
any resource and emits its parsed `Json` value. -/
theorem resourceValidate_encodeResource (r : Resource) :
    resourceValidate (encodeResource r) = some (toJsonR r) := by
  unfold resourceValidate
  rw [parseJson_encodeResource]
  simp [resourceFromJson_toJsonR r]

theorem pyStrip_brace (xs : List Char) :
    pyStrip ('\x7b' :: (xs ++ ['\x7d'])) = '\x7b' :: (xs ++ ['\x7d']) := by
  have hb : pySpace '\x7b' = false := rfl
  have hd : pySpace '\x7d' = false := rfl
  unfold pyStrip
  rw [List.dropWhile_cons]
  simp only [hb, Bool.false_eq_true, if_false]
  have h1 : ('\x7b' :: (xs ++ ['\x7d'])).reverse = '\x7d' :: (xs.reverse ++ ['\x7b']) := by
    simp
  rw [h1, List.dropWhile_cons]
  simp only [hd, Bool.false_eq_true, if_false]
  have h2 : ('\x7d' :: (xs.reverse ++ ['\x7b'])).reverse = '\x7b' :: (xs ++ ['\x7d']) := by
    simp
  rw [h2]

theorem pyStrip_encodeResource (r : Resource) :
    pyStrip (encodeResource r) = encodeResource r := by
  have h : encodeResource r = '\x7b' :: (commaSep
      [ encStr keyName ++ ':' :: encStr r.name
      , encStr keyAddresses ++ ':' :: encStrList r.addresses
      , encStr keyPhones ++ ':' :: encStrList r.phones
      , encStr keyEmails ++ ':' :: encStrList r.emails
      , encStr keyWebsite ++ ':' :: encOptStr r.website
      , encStr keyDescription ++ ':' :: encStr r.description
      , encStr keyJustification ++ ':' :: encStr r.justification
      , encStr keyReferralType ++ ':' :: encOptRt r.referral_type
      ] ++ ['\x7d']) := rfl
  rw [h, pyStrip_brace]

theorem endMarker_no_brace : ∀ k, k < 18 → endMarker[k]? ≠ some '\x7b' := by decide

theorem endMarker_no_rbrace : ∀ k, k < 18 → endMarker[k]? ≠ some '\x7d' := by decide

theorem endMarker_not_in_start : ∀ j, j < 3 → ¬ occursAt endMarker startMarker j := by decide

/-- A brace-delimited payload that contains no end marker is well framed:
no occurrence of the end marker can start inside its frame before the
closing marker (occurrences inside the start marker, straddling into the
payload, inside the payload, or straddling out of it are all impossible). -/
theorem framedPayload_of_shape (xs : List Char)
    (h : containsSub endMarker ('\x7b' :: (xs ++ ['\x7d'])) = false) :
    framedPayload ('\x7b' :: (xs ++ ['\x7d'])) := by
  set enc : List Char := '\x7b' :: (xs ++ ['\x7d']) with henc
  have hlenc : enc.length = xs.length + 2 := by simp [henc]
  have hpos : 0 < enc.length := by omega
  unfold framedPayload
  apply findSub_eq_some_iff.mpr
  constructor
  · unfold occursAt frameOf
    have hshape : startMarker ++ enc ++ endMarker = (startMarker ++ enc) ++ endMarker := by
      simp
    rw [hshape]
    have hl : startMarker.length + enc.length = (startMarker ++ enc).length := by simp
    rw [hl, List.drop_left]
  · intro j hj hocc
    rw [startMarker_length] at hj
    have hocc' : occursAt endMarker ((startMarker ++ enc) ++ endMarker) j := by
      have hshape : frameOf enc = (startMarker ++ enc) ++ endMarker := by
        simp [frameOf]
      rwa [hshape] at hocc
    have hbound := occursAt_bound endMarker_ne_nil hocc'
    rw [endMarker_length] at hbound
    simp only [List.length_append, startMarker_length] at hbound
    by_cases h1 : j + 18 ≤ 20
    · -- the occurrence would lie inside the start marker
      have hocc2 : occursAt endMarker (startMarker ++ (enc ++ endMarker)) j := by
        rwa [List.append_assoc] at hocc'
      have hin : occursAt endMarker startMarker j :=
        occursAt_of_append hocc2 (by rw [endMarker_length, startMarker_length]; omega)
      exact endMarker_not_in_start j (by omega) hin
    · by_cases h2 : j < 20
      · -- the occurrence would cover index 20, the opening brace of the payload
        have hk := @occursAt_getElem endMarker (frameOf enc) j (20 - j)
          hocc (by rw [endMarker_length]; omega)
        have hj20 : j + (20 - j) = 20 := by omega
        rw [hj20] at hk
        have hv : (frameOf enc)[20]? = some '\x7b' := by
          have hsh2 : frameOf enc = startMarker ++ (enc ++ endMarker) := by
            simp [frameOf]
          rw [hsh2,
            List.getElem?_append_right (show startMarker.length ≤ 20 by rw [startMarker_length])]
          rw [startMarker_length]
          simp only [Nat.sub_self]
          rw [henc]
          simp
        rw [hv] at hk
        exact endMarker_no_brace (20 - j) (by omega) hk.symm
      · by_cases h3 : j + 18 ≤ 20 + enc.length
        · -- the occurrence would lie inside the payload
          have hocc2 : occursAt endMarker (startMarker ++ (enc ++ endMarker)) j := by
            rwa [List.append_assoc] at hocc'
          have hsh := occursAt_append_shift hocc2 (by rw [startMarker_length]; omega)
          have hin : occursAt endMarker enc (j - startMarker.length) :=
            occursAt_of_append hsh
              (by rw [endMarker_length, startMarker_length]; omega)
          exact absurd (occurs_containsSub hin) (by simp [h])
        · -- the occurrence would cover the closing brace of the payload
          have hk := @occursAt_getElem endMarker (frameOf enc) j (19 + enc.length - j)
            hocc (by rw [endMarker_length]; omega)
          have hj19 : j + (19 + enc.length - j) = 19 + enc.length := by omega
          rw [hj19] at hk
          have hv : (frameOf enc)[19 + enc.length]? = some '\x7d' := by
            have hshape : frameOf enc = (startMarker ++ enc) ++ endMarker := by
              simp [frameOf]
            have hlt : 19 + enc.length < (startMarker ++ enc).length := by
              simp only [List.length_append, startMarker_length]
              omega
            rw [hshape, List.getElem?_append, if_pos hlt,
              List.getElem?_append_right
                (show startMarker.length ≤ 19 + enc.length by rw [startMarker_length]; omega)]
            rw [startMarker_length]
            have hidx : 19 + enc.length - 20 = xs.length + 1 := by omega
            rw [hidx, henc]
            simp [List.getElem?_concat_length]
          rw [hv] at hk
          exact endMarker_no_rbrace (19 + enc.length - j) (by omega) hk.symm

/-! ### Remaining helper lemmas -/

theorem framedPayload_encodeResource (r : Resource)
    (h : containsSub endMarker (encodeResource r) = false) :
    framedPayload (encodeResource r) := by
  have hsh : encodeResource r = '\x7b' :: (commaSep
      [ encStr keyName ++ ':' :: encStr r.name
      , encStr keyAddresses ++ ':' :: encStrList r.addresses
      , encStr keyPhones ++ ':' :: encStrList r.phones
      , encStr keyEmails ++ ':' :: encStrList r.emails
      , encStr keyWebsite ++ ':' :: encOptStr r.website
      , encStr keyDescription ++ ':' :: encStr r.description
      , encStr keyJustification ++ ':' :: encStr r.justification
      , encStr keyReferralType ++ ':' :: encOptRt r.referral_type
      ] ++ ['\x7d']) := rfl
  rw [hsh] at h ⊢
  exact framedPayload_of_shape _ h

/-- The streaming endpoint never yields the error event of the outer
`except` branch in the pure model. -/
theorem runStream_no_fatal {R : Type} (validate : List Char → Option R)
    (deltas : List (List Char)) (msg : List Char) :
    StreamEvent.fatalError msg ∉ runStream validate deltas := by
  unfold runStream
  intro hmem
  rcases List.mem_append.mp hmem with hrec | hnot
  · obtain ⟨r, _, hr⟩ := List.mem_map.mp hrec
    exact StreamEvent.noConfusion hr
  · by_cases hz : (processDeltas validate deltas).records.isEmpty
    · simp only [hz, if_true] at hnot
      rcases List.mem_singleton.mp hnot with h
      exact StreamEvent.noConfusion h
    · simp [hz] at hnot

/-- Pushing delta events that contain no end marker only grows the buffer:
no scan step can fire, so no record is emitted. -/
theorem foldl_no_end {R : Type} (validate : List Char → Option R) :
    ∀ (frags : List (List Char)) (pre : List Char) (rs : List R),
      containsSub endMarker (pre ++ frags.flatten) = false →
      frags.foldl (processDelta validate) ⟨pre, rs⟩ = ⟨pre ++ frags.flatten, rs⟩ := by
  intro frags
  induction frags with
  | nil => intro pre rs _; simp
  | cons d frags ih =>
    intro pre rs hno
    by_cases hd : d.isEmpty
    · have hdnil : d = [] := List.isEmpty_iff.mp hd
      subst hdnil
      simp only [List.foldl_cons, processDelta, List.isEmpty_nil, if_true]
      have := ih pre rs (by simpa using hno)
      rw [this]
      simp
    · have hd' : d.isEmpty = false := by simpa using hd
      simp only [List.foldl_cons, processDelta, hd', Bool.false_eq_true, if_false]
      have hnone : findSub endMarker (pre ++ d) = none := by
        cases hf : findSub endMarker (pre ++ d) with
        | none => rfl
        | some i =>
          have hocc := findSub_some_occurs hf
          have hocc2 : occursAt endMarker ((pre ++ d) ++ frags.flatten) i :=
            occursAt_append_of hocc
          have htrue : containsSub endMarker (pre ++ (d ++ frags.flatten)) = true := by
            rw [← List.append_assoc]
            exact occurs_containsSub hocc2
          simp only [List.flatten_cons] at hno
          rw [htrue] at hno
          exact Bool.noConfusion hno
      rw [scan_no_end hnone]
      dsimp only
      have hih := ih (pre ++ d) (rs ++ []) (by
        simp only [List.flatten_cons] at hno
        rw [← List.append_assoc] at hno
        exact hno)
      rw [hih]
      simp [List.append_assoc]

theorem allSome_eq_none {α β : Type} {f : α → Option β} :
    ∀ l : List α, (∃ x ∈ l, f x = none) → allSome f l = none := by
  intro l
  induction l with
  | nil => rintro ⟨x, hx, _⟩; simp at hx
  | cons a l ih =>
    rintro ⟨x, hx, hfx⟩
    rcases List.mem_cons.mp hx with rfl | hxl
    · simp [allSome, hfx]
    · unfold allSome
      rw [ih ⟨x, hxl, hfx⟩]
      cases f a <;> rfl

/-! ### Claim theorems -/

/-- Claim C1 (amended): one scan step locates the first start marker and
the first end marker *anywhere* in the buffer (not necessarily after the
start marker); it extracts the whitespace-stripped slice between the end
of the start marker and that end marker (empty when the end marker
precedes the start marker), hands it to the validator, and removes from
the buffer everything up to and including that end marker.  When no end
marker occurs before the first start marker this coincides with the
original claim, up to whitespace stripping. -/
theorem claim_C1_scan_step {R : Type} (validate : List Char → Option R)
    (b : List Char) (e s : Nat)
    (he : firstOccurAt endMarker b e) (hs : firstOccurAt startMarker b s) :
    scanStep validate b =
      some ((validate (pyStrip ((b.drop (s + startMarker.length)).take
          (e - (s + startMarker.length))))).toList,
        b.drop (e + endMarker.length)) := by
  unfold scanStep
  rw [findSub_eq_some_iff.mpr he, findSub_eq_some_iff.mpr hs]

/-- Witness for C1's amended theorem: a buffer whose first end marker
precedes its first start marker. -/
theorem claim_C1_witness :
    scanStep resourceValidate (endMarker ++ startMarker) =
      some ((resourceValidate (pyStrip
          (((endMarker ++ startMarker).drop (18 + startMarker.length)).take
            (0 - (18 + startMarker.length))))).toList,
        (endMarker ++ startMarker).drop (0 + endMarker.length)) :=
  claim_C1_scan_step resourceValidate (endMarker ++ startMarker) 0 18
    (by decide) (by decide)

/-- Counterexample to C1 as stated: the buffer starts with a stray end
marker followed by a complete well-formed frame.  The first start marker
is at index 18 and an end marker follows it, with a schema-valid record
between them; the claim predicts that the scan step extracts that record
and removes everything up to and including that closing marker.  The code
instead slices up to the *globally first* end marker (index 0), producing
an empty candidate that is dropped, and removes only the stray marker:
the step emits nothing and leaves the whole frame in the buffer. -/
theorem claim_C1_counterexample :
    resourceValidate (pyStrip (encodeResource sampleResource)) =
        some (toJsonR sampleResource) ∧
    occursAt startMarker (endMarker ++ frameOf (encodeResource sampleResource))
        endMarker.length ∧
    occursAt endMarker (endMarker ++ frameOf (encodeResource sampleResource))
        (endMarker.length + startMarker.length + (encodeResource sampleResource).length) ∧
    scanStep resourceValidate (endMarker ++ frameOf (encodeResource sampleResource)) =
        some ([], frameOf (encodeResource sampleResource)) ∧
    frameOf (encodeResource sampleResource) ≠ [] := by
  refine ⟨?_, by decide, by decide, ?_, by decide⟩
  · rw [pyStrip_encodeResource]
    exact resourceValidate_encodeResource sampleResource
  · rfl

/-- Claim C2: in blocking mode, when every generation attempt produces a
validation failure, the retry orchestration performs exactly the budgeted
number of attempts — never more — and returns the terminal exhausted
error carrying the failure of the last attempt.  (Modelled from the spec:
the loop itself lives in `src/common/components.py`, outside this
snapshot.) -/
theorem claim_C2_exhaustion {T : Type} (gen : Nat → PromptState → List Char)
    (validate : List Char → VOutcome T) (budget : Nat) (err raw : Nat → List Char)
    (hb : 1 ≤ budget)
    (hinv : ∀ i st, validate (gen i st) = .invalid (err i) (raw i)) :
    runRetry gen validate budget =
      ((⟨none, none⟩ : PromptState) :: (List.range (budget - 1)).map
          (fun j => ⟨some (err j), some (raw j)⟩),
        .exhausted (err (budget - 1)) (raw (budget - 1))) ∧
    (runRetry gen validate budget).1.length = budget := by
  have h := retryTrace_all_invalid gen validate err raw hinv budget hb 0 ⟨none, none⟩
  simp only [Nat.zero_add] at h
  unfold runRetry
  refine ⟨h, ?_⟩
  show (retryTrace gen validate budget 0 ⟨none, none⟩).1.length = budget
  rw [h]
  simp
  omega

/-- Witness for C2: a three-attempt budget with an always-invalid
validator exhausts after exactly three attempts. -/
theorem claim_C2_witness :
    runRetry (fun _ _ => "bad".data)
        (fun s => (VOutcome.invalid "err".data s : VOutcome Nat)) 3 =
      ((⟨none, none⟩ : PromptState) :: (List.range 2).map
          (fun _ => ⟨some "err".data, some "bad".data⟩),
        .exhausted "err".data "bad".data) ∧
    (runRetry (fun _ _ => "bad".data)
        (fun s => (VOutcome.invalid "err".data s : VOutcome Nat)) 3).1.length = 3 :=
  claim_C2_exhaustion (fun _ _ => "bad".data)
    (fun s => (VOutcome.invalid "err".data s : VOutcome Nat)) 3
    (fun _ => "err".data) (fun _ => "bad".data) (by omega) (fun _ _ => rfl)

/-- Claim C6: when attempts `1..k` fail validation and attempt `k + 1`
succeeds (with `k + 1` within the retry budget), the orchestration
succeeds after exactly `k + 1` attempts, and the prompt state rendered for
each retry carries the previous attempt's error description in
`error_message` and the offending reply in `invalid_replies`.  (Modelled
from the spec: the feedback wiring `output_validator.error_message →
prompt_builder.error_message` of `PipelineWrapper.setup` runs inside the
Haystack engine, outside this snapshot.) -/
theorem claim_C6_feedback {T : Type} (gen : Nat → PromptState → List Char)
    (validate : List Char → VOutcome T) (err raw : Nat → List Char) (v : T)
    (k budget : Nat) (hk : k < budget)
    (hinv : ∀ j st, j < k → validate (gen j st) = .invalid (err j) (raw j))
    (hval : ∀ st, validate (gen k st) = .valid v) :
    runRetry gen validate budget =
      ((⟨none, none⟩ : PromptState) :: (List.range k).map
          (fun j => ⟨some (err j), some (raw j)⟩),
        .done v) ∧
    (runRetry gen validate budget).1.length = k + 1 := by
  have h := retryTrace_then_valid gen validate err raw v k 0
    (by intro j st hj; simpa using hinv j st hj)
    (by intro st; simpa using hval st)
    budget hk ⟨none, none⟩
  simp only [Nat.zero_add] at h
  unfold runRetry
  refine ⟨h, ?_⟩
  show (retryTrace gen validate budget 0 ⟨none, none⟩).1.length = k + 1
  rw [h]
  simp

/-- Witness for C6: one invalid attempt, then a valid one, inside a
three-attempt budget. -/
theorem claim_C6_witness :
    runRetry (fun i _ => if i = 0 then "bad".data else "good".data)
        (fun s => if s = "good".data then (VOutcome.valid 42 : VOutcome Nat)
          else .invalid "e".data s) 3 =
      ((⟨none, none⟩ : PromptState) :: (List.range 1).map
          (fun _ => ⟨some "e".data, some "bad".data⟩),
        .done 42) ∧
    (runRetry (fun i _ => if i = 0 then "bad".data else "good".data)
        (fun s => if s = "good".data then (VOutcome.valid 42 : VOutcome Nat)
          else .invalid "e".data s) 3).1.length = 1 + 1 :=
  claim_C6_feedback
    (fun i _ => if i = 0 then "bad".data else "good".data)
    (fun s => if s = "good".data then (VOutcome.valid 42 : VOutcome Nat)
      else .invalid "e".data s)
    (fun _ => "e".data) (fun _ => "bad".data) 42 1 3 (by omega)
    (by
      intro j st hj
      have hj0 : j = 0 := by omega
      subst hj0
      rfl)
    (fun st => rfl)

/-- Claim C3: for every sequence of delta events whose concatenation is
record A's frame followed by record B's frame — regardless of how the
text is split across events, including splits inside the markers — the
stream extractor emits exactly the two records, A first, B second, in the
order of their closing markers. -/
theorem claim_C3_split_invariance (chunks : List (List Char))
    (pA pB : List Char) (a b : Json)
    (hA : framedPayload pA) (hB : framedPayload pB)
    (hvA : resourceValidate (pyStrip pA) = some a)
    (hvB : resourceValidate (pyStrip pB) = some b)
    (hcat : chunks.flatten = frameOf pA ++ frameOf pB) :
    runStream resourceValidate chunks =
      [StreamEvent.record a, StreamEvent.record b] := by
  unfold runStream
  rw [processDeltas_eq_scan, hcat]
  have h1 := frame_scan resourceValidate pA (frameOf pB) hA
  have h2 := frame_scan resourceValidate pB [] hB
  rw [List.append_nil] at h2
  rw [h1, hvA, h2, hvB, scan_nil]
  simp

/-- Witness for C3: the two sample frames split into three chunks, the
first cut inside the leading start marker. -/
theorem claim_C3_witness :
    runStream resourceValidate
      [ (frameOf (encodeResource sampleResource) ++
          frameOf (encodeResource sampleResourceB)).take 7
      , ((frameOf (encodeResource sampleResource) ++
          frameOf (encodeResource sampleResourceB)).drop 7).take 40
      , ((frameOf (encodeResource sampleResource) ++
          frameOf (encodeResource sampleResourceB)).drop 7).drop 40 ] =
      [StreamEvent.record (toJsonR sampleResource),
        StreamEvent.record (toJsonR sampleResourceB)] :=
  claim_C3_split_invariance
    [ (frameOf (encodeResource sampleResource) ++
        frameOf (encodeResource sampleResourceB)).take 7
    , ((frameOf (encodeResource sampleResource) ++
        frameOf (encodeResource sampleResourceB)).drop 7).take 40
    , ((frameOf (encodeResource sampleResource) ++
        frameOf (encodeResource sampleResourceB)).drop 7).drop 40 ]
    (encodeResource sampleResource) (encodeResource sampleResourceB)
    (toJsonR sampleResource) (toJsonR sampleResourceB)
    (by decide) (by decide)
    (by rw [pyStrip_encodeResource]; exact resourceValidate_encodeResource _)
    (by rw [pyStrip_encodeResource]; exact resourceValidate_encodeResource _)
    (by
      simp only [List.flatten_cons, List.flatten_nil, List.append_nil]
      rw [List.take_append_drop, List.take_append_drop])

/-- Claim C4: malformed candidates are dropped and scanning continues —
a buffer holding any number of well-framed but invalid candidates
followed by one well-formed frame yields exactly the one valid record,
and the stream does not terminate early. -/
theorem claim_C4_bad_frames (bads : List (List Char)) (good : List Char) (g : Json)
    (hbads : ∀ p ∈ bads, framedPayload p ∧ resourceValidate (pyStrip p) = none)
    (hg : framedPayload good)
    (hvg : resourceValidate (pyStrip good) = some g) :
    runStream resourceValidate [(bads.map frameOf).flatten ++ frameOf good] =
      [StreamEvent.record g] := by
  unfold runStream
  rw [processDeltas_eq_scan]
  simp only [List.flatten_cons, List.flatten_nil, List.append_nil]
  rw [frames_dropped_scan resourceValidate bads hbads (frameOf good)]
  have h2 := frame_scan resourceValidate good [] hg
  rw [List.append_nil] at h2
  rw [h2, hvg, scan_nil]
  simp

/-- Witness for C4: one malformed frame before a valid one. -/
theorem claim_C4_witness :
    runStream resourceValidate
      [([("not json".data)].map frameOf).flatten ++
        frameOf (encodeResource sampleResource)] =
      [StreamEvent.record (toJsonR sampleResource)] :=
  claim_C4_bad_frames [("not json".data)] (encodeResource sampleResource)
    (toJsonR sampleResource)
    (by
      intro p hp
      rcases List.mem_singleton.mp hp with rfl
      exact ⟨by decide, by rfl⟩)
    (by decide)
    (by rw [pyStrip_encodeResource]; exact resourceValidate_encodeResource _)

/-- Counterexample to C5 as stated: the action-plan blocking pipeline
contains no validator component (its graph is `prompt_builder → llm →
logger`), and `_run` returns the model's raw reply; a reply that fails
the `ActionPlan` schema is returned to the caller unvalidated, with no
fatal error. -/
theorem claim_C5_counterexample :
    actionPlanRun (fun _ => "This is not a JSON action plan.".data) "prompt".data =
      ⟨"This is not a JSON action plan.".data⟩ ∧
    actionPlanValidate "This is not a JSON action plan.".data = none :=
  ⟨rfl, by rfl⟩

/-- Claim C5 (amended): only the referrals blocking pipeline validates —
whenever the modelled referrals retry orchestration returns a value, that
value was accepted by the `ResourceList` schema validator; the
action-plan blocking pipeline returns the generator's raw reply text with
no schema validation.  (Modelled from the spec: the pipeline engine and
the `LlmOutputValidator` live in `src/common/components.py`, outside this
snapshot; the absence of any validator in the action-plan graph is
visible in `setup`.) -/
theorem claim_C5_blocking_validation :
    (∀ (gen : Nat → PromptState → List Char) (budget : Nat)
        (tr : List PromptState) (v : List Resource),
      runRetry gen resourceListValidate budget = (tr, .done v) →
      ∃ reply, resourceListValidate reply = .valid v) ∧
    (∀ (llm : List Char → List Char) (prompt : List Char),
      (actionPlanRun llm prompt).response = llm prompt) := by
  constructor
  · intro gen budget tr v h
    exact retryTrace_done_valid budget 0 ⟨none, none⟩ tr v h
  · intro llm prompt
    rfl

/-- Witness for C5's amended theorem: a generator whose first reply is a
valid (empty) resource list. -/
theorem claim_C5_witness :
    (∃ reply, resourceListValidate reply = .valid ([] : List Resource)) ∧
    (actionPlanRun (fun p => p) "x".data).response = "x".data :=
  ⟨claim_C5_blocking_validation.1 (fun _ _ => "\x7b\"resources\":[]\x7d".data) 3
      [⟨none, none⟩] [] (by rfl),
    claim_C5_blocking_validation.2 (fun p => p) "x".data⟩

/-- Claim C7: when the stream's completion event arrives while the buffer
holds a start marker with no matching end marker, the partial fragment is
discarded: it contributes no record, no error event is produced, and the
endpoint terminates normally — the output events are exactly those of the
stream without the trailing fragment. -/
theorem claim_C7_drain_discard {R : Type} (validate : List Char → Option R)
    (goods frags : List (List Char))
    (hclean : (processDeltas validate goods).buffer = [])
    (_hstart : containsSub startMarker frags.flatten = true)
    (hnoend : containsSub endMarker frags.flatten = false) :
    runStream validate (goods ++ frags) = runStream validate goods ∧
    ∀ msg, StreamEvent.fatalError msg ∉ runStream validate (goods ++ frags) := by
  have hfold : processDeltas validate (goods ++ frags) =
      ⟨frags.flatten, (processDeltas validate goods).records⟩ := by
    unfold processDeltas
    rw [List.foldl_append]
    have hst : List.foldl (processDelta validate) (⟨[], []⟩ : ExtractState R) goods =
        ⟨[], (processDeltas validate goods).records⟩ := by
      have : processDeltas validate goods =
          ⟨(processDeltas validate goods).buffer, (processDeltas validate goods).records⟩ := rfl
      rw [hclean] at this
      exact this
    rw [hst, foldl_no_end validate frags [] (processDeltas validate goods).records
      (by simpa using hnoend)]
    simp
  constructor
  · unfold runStream
    rw [hfold]
  · intro msg
    exact runStream_no_fatal validate (goods ++ frags) msg

/-- Witness for C7: one complete frame, then a fragment cut inside the
start marker and left unterminated. -/
theorem claim_C7_witness :
    runStream resourceValidate
        ([frameOf (encodeResource sampleResource)] ++
          ["---RESOURCE_ST".data, "ART---\x7b\"name\":\"partial".data]) =
      runStream resourceValidate [frameOf (encodeResource sampleResource)] ∧
    ∀ msg, StreamEvent.fatalError msg ∉ runStream resourceValidate
        ([frameOf (encodeResource sampleResource)] ++
          ["---RESOURCE_ST".data, "ART---\x7b\"name\":\"partial".data]) :=
  claim_C7_drain_discard resourceValidate
    [frameOf (encodeResource sampleResource)]
    ["---RESOURCE_ST".data, "ART---\x7b\"name\":\"partial".data]
    (by rfl) (by decide) (by decide)

/-- Claim C8: a stream over which no record is ever emitted yields exactly
one "no records generated" sentinel event, which is distinct from any
record event, and yields no record events. -/
theorem claim_C8_sentinel {R : Type} (validate : List Char → Option R)
    (deltas : List (List Char))
    (hzero : (processDeltas validate deltas).records = []) :
    runStream validate deltas = [StreamEvent.noticeNoRecords] ∧
    ∀ r : R, (StreamEvent.record r : StreamEvent R) ≠ StreamEvent.noticeNoRecords := by
  constructor
  · simp [runStream, hzero]
  · intro r h
    exact StreamEvent.noConfusion h

/-- Witness for C8: a stream of plain text with no frames. -/
theorem claim_C8_witness :
    runStream resourceValidate ["no frames here".data] =
      [StreamEvent.noticeNoRecords] ∧
    ∀ r : Json, (StreamEvent.record r : StreamEvent Json) ≠ StreamEvent.noticeNoRecords :=
  claim_C8_sentinel resourceValidate ["no frames here".data] (by rfl)

/-- Counterexample to C9 as stated: `markerNameResource` is schema-valid
(pydantic reconstructs it from its JSON value), but its JSON encoding
contains the end marker inside the `name` string, so rendering it into
the wire format and extracting yields no record at all — the extractor
cuts at the embedded marker, the candidate fails to parse and is dropped,
and the stream ends with the "no records" sentinel instead of one record
equal to the original.  (The renderer is modelled from the spec; the
repository contains no renderer for the wire format.) -/
theorem claim_C9_counterexample :
    resourceFromJson (toJsonR markerNameResource) = some markerNameResource ∧
    runStream resourceValidate [frameOf (encodeResource markerNameResource)] =
      [StreamEvent.noticeNoRecords] :=
  ⟨resourceFromJson_toJsonR markerNameResource, by rfl⟩

/-- Claim C9 (amended): for every schema-valid record value whose JSON
encoding does not contain the end marker, rendering it into the streaming
wire format and extracting that text via the stream extractor yields
exactly one emitted record — the parsed JSON of the encoding — and that
record denotes the original value (pydantic validation reconstructs it).
(The renderer is modelled from the spec; the repository contains no
renderer for the wire format.) -/
theorem claim_C9_roundtrip (r : Resource)
    (h : containsSub endMarker (encodeResource r) = false) :
    runStream resourceValidate [frameOf (encodeResource r)] =
      [StreamEvent.record (toJsonR r)] ∧
    resourceFromJson (toJsonR r) = some r := by
  constructor
  · unfold runStream
    rw [processDeltas_eq_scan]
    simp only [List.flatten_cons, List.flatten_nil, List.append_nil]
    have hf : framedPayload (encodeResource r) := framedPayload_encodeResource r h
    have h1 := frame_scan resourceValidate (encodeResource r) [] hf
    rw [List.append_nil] at h1
    rw [h1, pyStrip_encodeResource, resourceValidate_encodeResource, scan_nil]
    simp
  · exact resourceFromJson_toJsonR r

/-- Witness for C9's amended theorem: a marker-free sample resource with
website and referral type set. -/
theorem claim_C9_witness :
    runStream resourceValidate [frameOf (encodeResource sampleResourceB)] =
      [StreamEvent.record (toJsonR sampleResourceB)] ∧
    resourceFromJson (toJsonR sampleResourceB) = some sampleResourceB :=
  claim_C9_roundtrip sampleResourceB (by decide)

/-- Claim C10: the resource-coercion helper returns `[]` on an empty
list; if the first element is already a `Resource` object the entire list
is returned unchanged (no validation of the remaining elements); and
otherwise every element is re-parsed as a `Resource` — succeeding only if
every element parses (producing the parsed list) and raising as soon as
any element fails, so the outcome depends only on the first element's
type. -/
theorem claim_C10_get_resources :
    get_resources [] = some [] ∧
    (∀ (r : Resource) (rest : List ResInput),
      get_resources (.res r :: rest) = some (.res r :: rest)) ∧
    (∀ (j : Json) (rest : List ResInput) (out : List ResInput),
      get_resources (.dict j :: rest) = some out →
      ∃ rs : List Resource, out = rs.map .res ∧
        allSome parseElem (.dict j :: rest) = some rs) ∧
    (∀ (j : Json) (rest : List ResInput),
      (∃ x ∈ ResInput.dict j :: rest, parseElem x = none) →
      get_resources (.dict j :: rest) = none) := by
  refine ⟨rfl, fun r rest => rfl, ?_, ?_⟩
  · intro j rest out h
    unfold get_resources at h
    dsimp only at h
    cases hall : allSome parseElem (ResInput.dict j :: rest) with
    | none => rw [hall] at h; simp at h
    | some rs =>
      rw [hall] at h
      simp at h
      exact ⟨rs, h.symm, rfl⟩
  · intro j rest hex
    unfold get_resources
    dsimp only
    rw [allSome_eq_none _ hex]
    rfl

/-- Witness for C10: a leading `Resource` object shields an invalid dict
from validation; a leading invalid dict raises. -/
theorem claim_C10_witness :
    get_resources [ResInput.res sampleResource, ResInput.dict Json.null] =
      some [ResInput.res sampleResource, ResInput.dict Json.null] ∧
    get_resources [ResInput.dict Json.null] = none :=
  ⟨claim_C10_get_resources.2.1 sampleResource [ResInput.dict Json.null],
    claim_C10_get_resources.2.2.2 Json.null []
      ⟨ResInput.dict Json.null, by simp, rfl⟩⟩
